import Mathlib

/-!
Verification of the type-system core of a content-addressed typed value
database (the noms repository), against its specification.

The repository sources available here contain the test suite of the type
core (assert-type tests), a leaf-sequence helper, and the HTTP batch store.
The type-term data model, the type builder (`MakeUnionType`,
`MakeStructType`, ...) and the subtype judge (`isSubtype`, `assertSubtype`)
are exercised by the tests but their defining source file is not present,
so those operations are modelled from the specification (each such
definition carries a doc comment starting with `Modelled from the spec:`).
The HTTP batch store's `UpdateRoot` is embedded from its source.

Representation: a type term is a tree; a `cycle name` node is a back-edge
to the innermost enclosing struct node with that name (the spec's resolved
`Cycle<name>` placeholder).  Struct-vs-struct comparison unfolds the two
structs by substituting each struct for its own bound cycle references, so
a back-edge reached during judgment denotes the enclosing struct itself.
The judge is embedded with an explicit fuel argument (`isSubtypeMemoF`);
termination (spec section "Termination") is the proved statement that the
computable fuel bound `fuelBound` is sufficient on finalized (closed)
types.
-/

mutual
/-- Modelled from the spec: type terms ("a node with a kind and child type
slots"); missing from the sources is the type data model (`types.Type`).
`TyList` and `Fields` are the child-slot lists, kept as a mutual inductive
so that all operations are structurally recursive. A struct field is
(fieldName, fieldType, optional); `cycle name` is a resolved back-edge to
the innermost enclosing struct of that name. -/
inductive Ty : Type where
  | bool : Ty
  | number : Ty
  | str : Ty
  | blob : Ty
  | value : Ty
  | typ : Ty
  | list (t : Ty) : Ty
  | set (t : Ty) : Ty
  | ref (t : Ty) : Ty
  | map (k : Ty) (v : Ty) : Ty
  | union (ts : TyList) : Ty
  | strct (name : String) (fields : Fields) : Ty
  | cycle (name : String) : Ty
  deriving DecidableEq, Repr

inductive TyList : Type where
  | nil : TyList
  | cons (t : Ty) (ts : TyList) : TyList
  deriving DecidableEq, Repr

inductive Fields : Type where
  | nil : Fields
  | cons (name : String) (t : Ty) (opt : Bool) (fs : Fields) : Fields
  deriving DecidableEq, Repr
end

/-- Conversion of the child-slot list to a standard list, used to state
lemmas with the standard list library. -/
def TyList.toList : TyList → List Ty
  | .nil => []
  | .cons t ts => t :: ts.toList

/-- Conversion of a standard list of types back into a child-slot list. -/
def TyList.ofList : List Ty → TyList
  | [] => .nil
  | t :: ts => .cons t (TyList.ofList ts)

/-- Conversion of struct fields to a standard list of triples. -/
def Fields.toList : Fields → List (String × Ty × Bool)
  | .nil => []
  | .cons n t o fs => (n, t, o) :: fs.toList

theorem TyList.toList_ofList : ∀ l : List Ty, (TyList.ofList l).toList = l
  | [] => rfl
  | t :: ts => by simp [TyList.ofList, TyList.toList, TyList.toList_ofList ts]

mutual
/-- Size of a type term (number of nodes), the structural measure used by
the termination development. -/
def tySize : Ty → Nat
  | .list t => 1 + tySize t
  | .set t => 1 + tySize t
  | .ref t => 1 + tySize t
  | .map k v => 1 + tySize k + tySize v
  | .union ts => 1 + tyListSize ts
  | .strct _ fs => 1 + fieldsSize fs
  | _ => 1

def tyListSize : TyList → Nat
  | .nil => 0
  | .cons t ts => tySize t + tyListSize ts

def fieldsSize : Fields → Nat
  | .nil => 0
  | .cons _ t _ fs => tySize t + fieldsSize fs
end

theorem tySize_pos : ∀ t : Ty, 0 < tySize t := by
  intro t
  cases t <;> simp [tySize]

theorem tySize_mem_le : ∀ ts : TyList, ∀ t ∈ ts.toList, tySize t ≤ tyListSize ts
  | .cons u ts, t, h => by
    rcases List.mem_cons.mp h with h | h
    · subst h; simp [tyListSize]
    · have := tySize_mem_le ts t h
      simp [tyListSize]; omega

/-- Injective encoding of a string into a natural number, via the
character codes; it induces the total order used to canonicalize unions. -/
def natListEncode : List Nat → Nat
  | [] => 0
  | n :: ns => Nat.pair n (natListEncode ns) + 1

theorem natListEncode_inj : ∀ xs ys : List Nat, natListEncode xs = natListEncode ys → xs = ys
  | [], [], _ => rfl
  | [], _ :: _, h => by simp [natListEncode] at h
  | _ :: _, [], h => by simp [natListEncode] at h
  | x :: xs, y :: ys, h => by
    simp only [natListEncode, Nat.add_right_cancel_iff, Nat.pair_eq_pair] at h
    rw [h.1, natListEncode_inj xs ys h.2]

def strEncode (s : String) : Nat := natListEncode (s.toList.map Char.toNat)

theorem charToNat_inj : Function.Injective Char.toNat := by
  intro a b h
  exact Char.eq_of_val_eq (UInt32.ext h)

theorem strEncode_inj : ∀ s t : String, strEncode s = strEncode t → s = t := by
  intro s t h
  have h2 := natListEncode_inj _ _ h
  have h3 := List.map_injective_iff.mpr charToNat_inj h2
  exact String.ext (by simpa [String.toList] using h3)

/-- Encoding of a Bool flag into a natural number. -/
def boolEncode : Bool → Nat
  | false => 0
  | true => 1

theorem boolEncode_inj : ∀ a b : Bool, boolEncode a = boolEncode b → a = b := by
  decide

mutual
/-- Modelled from the spec: the "total order over type terms (stable
across runs)" used to canonicalize union children (the spec leaves the
concrete order as an implementation choice and suggests a lexicographic
order on kind and children; this development realizes it by an injective
encoding of type terms into the naturals). -/
def tyEncode : Ty → Nat
  | .bool => Nat.pair 0 0
  | .number => Nat.pair 1 0
  | .str => Nat.pair 2 0
  | .blob => Nat.pair 3 0
  | .value => Nat.pair 4 0
  | .typ => Nat.pair 5 0
  | .list t => Nat.pair 6 (tyEncode t)
  | .set t => Nat.pair 7 (tyEncode t)
  | .ref t => Nat.pair 8 (tyEncode t)
  | .map k v => Nat.pair 9 (Nat.pair (tyEncode k) (tyEncode v))
  | .union ts => Nat.pair 10 (tyListEncode ts)
  | .strct n fs => Nat.pair 11 (Nat.pair (strEncode n) (fieldsEncode fs))
  | .cycle n => Nat.pair 12 (strEncode n)

def tyListEncode : TyList → Nat
  | .nil => 0
  | .cons t ts => Nat.pair (tyEncode t) (tyListEncode ts) + 1

def fieldsEncode : Fields → Nat
  | .nil => 0
  | .cons n t o fs =>
    Nat.pair (strEncode n) (Nat.pair (tyEncode t) (Nat.pair (boolEncode o) (fieldsEncode fs))) + 1
end

mutual
theorem tyEncode_inj : ∀ a b : Ty, tyEncode a = tyEncode b → a = b
  | .bool, b, h => by cases b <;> simp [tyEncode, Nat.pair_eq_pair] at h; rfl
  | .number, b, h => by cases b <;> simp [tyEncode, Nat.pair_eq_pair] at h; rfl
  | .str, b, h => by cases b <;> simp [tyEncode, Nat.pair_eq_pair] at h; rfl
  | .blob, b, h => by cases b <;> simp [tyEncode, Nat.pair_eq_pair] at h; rfl
  | .value, b, h => by cases b <;> simp [tyEncode, Nat.pair_eq_pair] at h; rfl
  | .typ, b, h => by cases b <;> simp [tyEncode, Nat.pair_eq_pair] at h; rfl
  | .list t, b, h => by
    cases b <;> simp [tyEncode, Nat.pair_eq_pair] at h
    exact congrArg Ty.list (tyEncode_inj t _ h)
  | .set t, b, h => by
    cases b <;> simp [tyEncode, Nat.pair_eq_pair] at h
    exact congrArg Ty.set (tyEncode_inj t _ h)
  | .ref t, b, h => by
    cases b <;> simp [tyEncode, Nat.pair_eq_pair] at h
    exact congrArg Ty.ref (tyEncode_inj t _ h)
  | .map k v, b, h => by
    cases b <;> simp [tyEncode, Nat.pair_eq_pair] at h
    rw [tyEncode_inj k _ h.1, tyEncode_inj v _ h.2]
  | .union ts, b, h => by
    cases b <;> simp [tyEncode, Nat.pair_eq_pair] at h
    rw [tyListEncode_inj ts _ h]
  | .strct n fs, b, h => by
    cases b <;> simp [tyEncode, Nat.pair_eq_pair] at h
    rw [strEncode_inj n _ h.1, fieldsEncode_inj fs _ h.2]
  | .cycle n, b, h => by
    cases b <;> simp [tyEncode, Nat.pair_eq_pair] at h
    rw [strEncode_inj n _ h]

theorem tyListEncode_inj : ∀ xs ys : TyList, tyListEncode xs = tyListEncode ys → xs = ys
  | .nil, .nil, _ => rfl
  | .nil, .cons _ _, h => by simp [tyListEncode] at h
  | .cons _ _, .nil, h => by simp [tyListEncode] at h
  | .cons x xs, .cons y ys, h => by
    simp only [tyListEncode, Nat.add_right_cancel_iff, Nat.pair_eq_pair] at h
    rw [tyEncode_inj x y h.1, tyListEncode_inj xs ys h.2]

theorem fieldsEncode_inj : ∀ xs ys : Fields, fieldsEncode xs = fieldsEncode ys → xs = ys
  | .nil, .nil, _ => rfl
  | .nil, .cons _ _ _ _, h => by simp [fieldsEncode] at h
  | .cons _ _ _ _, .nil, h => by simp [fieldsEncode] at h
  | .cons n t o fs, .cons m u p gs, h => by
    simp only [fieldsEncode, Nat.add_right_cancel_iff, Nat.pair_eq_pair] at h
    rw [strEncode_inj n m h.1, tyEncode_inj t u h.2.1, boolEncode_inj o p h.2.2.1,
      fieldsEncode_inj fs gs h.2.2.2]
end

/-- Modelled from the spec: the total order over type terms.  `tyle a b`
holds when `a` precedes (or equals) `b` in the canonical union order. -/
def tyle (a b : Ty) : Prop := tyEncode a ≤ tyEncode b

instance : DecidableRel tyle := fun a b => Nat.decLe (tyEncode a) (tyEncode b)

instance : IsTotal Ty tyle := ⟨fun a b => Nat.le_total (tyEncode a) (tyEncode b)⟩

instance : IsTrans Ty tyle := ⟨fun _ _ _ h1 h2 => Nat.le_trans h1 h2⟩

instance : IsAntisymm Ty tyle :=
  ⟨fun a b h1 h2 => tyEncode_inj a b (Nat.le_antisymm h1 h2)⟩

/-- Bool type singleton. -/
def BoolType : Ty := Ty.bool

/-- Number type singleton. -/
def NumberType : Ty := Ty.number

/-- String type singleton. -/
def StringType : Ty := Ty.str

/-- Blob type singleton. -/
def BlobType : Ty := Ty.blob

/-- Value (top) type singleton. -/
def ValueType : Ty := Ty.value

/-- Type-of-types singleton. -/
def TypeType : Ty := Ty.typ

/-- Struct field triple (fieldName, fieldType, optional), mirroring the
source's `StructField`. -/
abbrev StructField : Type := String × Ty × Bool

/-- Modelled from the spec: `MakeListType(T)` produces the single-child
List node; missing from the sources is the type builder. -/
def MakeListType (t : Ty) : Ty := Ty.list t

/-- Modelled from the spec: `MakeSetType(T)`. -/
def MakeSetType (t : Ty) : Ty := Ty.set t

/-- Modelled from the spec: `MakeRefType(T)`. -/
def MakeRefType (t : Ty) : Ty := Ty.ref t

/-- Modelled from the spec: `MakeMapType(K,V)` with children ordered (K, V). -/
def MakeMapType (k v : Ty) : Ty := Ty.map k v

/-- Modelled from the spec: `MakeCycleType(name)` produces the symbolic
placeholder node; in this representation a placeholder inside a
`MakeStructType` call is already the resolved back-edge (resolution by
innermost enclosing name is the reading the judge gives it). -/
def MakeCycleType (name : String) : Ty := Ty.cycle name

mutual
/-- Modelled from the spec: the "Flatten" step of union normalization; a
child that is itself a union is replaced by its children, recursively. -/
def flattenOne : Ty → List Ty
  | .union ts => flattenList ts
  | t => [t]

def flattenList : TyList → List Ty
  | .nil => []
  | .cons t ts => flattenOne t ++ flattenList ts
end

/-- Modelled from the spec: `MakeUnionType(T1, ..., Tn)`; flatten, then
deduplicate by structural equality, then sort by the total order, then
collapse a one-child result to its child (zero children give the empty
union, the bottom type). -/
def MakeUnionType (ts : TyList) : Ty :=
  match List.insertionSort tyle (List.dedup (flattenList ts)) with
  | [t] => t
  | arms => Ty.union (TyList.ofList arms)

/-- Conversion of a standard list of field triples into struct fields. -/
def Fields.ofList : List StructField → Fields
  | [] => .nil
  | (n, t, o) :: fs => .cons n t o (Fields.ofList fs)

/-- Lexicographic strict order on lists of naturals. -/
def natListLtB : List Nat → List Nat → Bool
  | [], [] => false
  | [], _ :: _ => true
  | _ :: _, [] => false
  | a :: as, b :: bs => if a < b then true else if b < a then false else natListLtB as bs

/-- Lexicographic strict order on strings by character code (the string
order `<`, written over the character codes so that it evaluates). -/
def strLtB (a b : String) : Bool :=
  natListLtB (a.toList.map Char.toNat) (b.toList.map Char.toNat)

/-- Order on struct fields: by field name (f comes no later than g). -/
def fieldle (f g : StructField) : Prop := strLtB g.1 f.1 = false

instance : DecidableRel fieldle := fun f g => inferInstanceAs (Decidable (strLtB g.1 f.1 = false))

/-- Modelled from the spec: `MakeStructType(name, fields...)`; fields are
sorted by field name (the duplicate-field-name construction failure is a
fatal builder error outside the judged claims and is not modelled). -/
def MakeStructType (name : String) (fields : List StructField) : Ty :=
  Ty.strct name (Fields.ofList (List.insertionSort fieldle fields))

/-- Empty struct type: the anonymous struct with zero fields. -/
def EmptyStructType : Ty := MakeStructType "" []

mutual
/-- Substitution of the struct `s` for every back-edge `cycle n` bound by
the immediately enclosing struct named `n`; an inner struct with the same
name shadows, so substitution stops there. -/
def substCycle (n : String) (s : Ty) : Ty → Ty
  | .cycle m => if m = n then s else .cycle m
  | .strct m fs => if m = n then .strct m fs else .strct m (substFields n s fs)
  | .list t => .list (substCycle n s t)
  | .set t => .set (substCycle n s t)
  | .ref t => .ref (substCycle n s t)
  | .map k v => .map (substCycle n s k) (substCycle n s v)
  | .union ts => .union (substTyList n s ts)
  | t => t

def substTyList (n : String) (s : Ty) : TyList → TyList
  | .nil => .nil
  | .cons t ts => .cons (substCycle n s t) (substTyList n s ts)

def substFields (n : String) (s : Ty) : Fields → Fields
  | .nil => .nil
  | .cons m t o fs => .cons m (substCycle n s t) o (substFields n s fs)
end

/-- Unfolding of a struct type `strct n fs` for field comparison: each
field type has the struct itself substituted for its bound back-edges. -/
def structUnfold (n : String) (fs : Fields) : Fields :=
  substFields n (Ty.strct n fs) fs

mutual
/-- Check that every `cycle` back-edge refers to an enclosing struct name
in `bound`; `closedB [] t` states that `t` is finalized (the spec's "no
Cycle node remains as a reachable placeholder"). -/
def closedB : List String → Ty → Bool
  | bound, .cycle m => decide (m ∈ bound)
  | bound, .strct n fs => closedFieldsB (n :: bound) fs
  | bound, .list t => closedB bound t
  | bound, .set t => closedB bound t
  | bound, .ref t => closedB bound t
  | bound, .map k v => closedB bound k && closedB bound v
  | bound, .union ts => closedTyListB bound ts
  | _, _ => true

def closedTyListB : List String → TyList → Bool
  | _, .nil => true
  | bound, .cons t ts => closedB bound t && closedTyListB bound ts

def closedFieldsB : List String → Fields → Bool
  | _, .nil => true
  | bound, .cons _ t _ fs => closedB bound t && closedFieldsB bound fs
end

/-- Closedness of a finalized type: every back-edge is bound. -/
def Closed (t : Ty) : Prop := closedB [] t = true

instance : DecidablePred Closed := fun t => inferInstanceAs (Decidable (closedB [] t = true))

/-- Kleene conjunction on the fuel-approximation domain: `none` stands
for "fuel ran out"; a definite `false` wins over `none`. -/
def oand : Option Bool → Option Bool → Option Bool
  | some false, _ => some false
  | _, some false => some false
  | some true, some true => some true
  | _, _ => none

/-- Kleene disjunction on the fuel-approximation domain. -/
def oor : Option Bool → Option Bool → Option Bool
  | some true, _ => some true
  | _, some true => some true
  | some false, some false => some false
  | _, _ => none

/-- Conjunction over all arms of a union (the concrete-union rule: every
arm must fit). -/
def allSubF (f : Ty → Option Bool) : TyList → Option Bool
  | .nil => some true
  | .cons t ts => oand (f t) (allSubF f ts)

/-- Disjunction over all arms of a union (the required-union rule: some
arm must accept). -/
def anySubF (f : Ty → Option Bool) : TyList → Option Bool
  | .nil => some false
  | .cons t ts => oor (f t) (anySubF f ts)

/-- Advance the concrete-field cursor past fields whose names sort before
`rn` (width subtyping: the concrete struct may have extra fields). -/
def seekField (rn : String) : Fields → Fields
  | .nil => .nil
  | .cons cn ct co cs => if strLtB cn rn then seekField rn cs else .cons cn ct co cs

/-- Modelled from the spec: the field rule of struct subtyping (width +
depth + optionality); walks the required fields in sorted order against
the concrete fields, `f` judging the field types. -/
def fieldsSubF (f : Ty → Ty → Option Bool) : Fields → Fields → Option Bool
  | .nil, _ => some true
  | .cons rn rt ro rs, cfs =>
    match seekField rn cfs with
    | .nil => if ro then fieldsSubF f rs .nil else some false
    | .cons cn ct co cs =>
      if cn = rn then
        if ro = false ∧ co = true then some false
        else oand (f rt ct) (fieldsSubF f rs cs)
      else if ro then fieldsSubF f rs (.cons cn ct co cs)
      else some false

/-- Modelled from the spec: one step of the subtype judge `isSubtypeMemo`
(sections "General rules", "Kind-driven cases", "Struct subtyping"), with
`go` judging the recursive subproblems.  The memo is the set of struct
pairs currently being compared; a pair already in the memo returns true
(the coinductive hypothesis), and a struct-vs-struct comparison inserts
its pair before recursing into the unfolded fields.  A `cycle` node
reached in judgment position (impossible for finalized types) fails as a
construction bug, here `false`. -/
def isSubStep (go : List (Ty × Ty) → Ty → Ty → Option Bool)
    (memo : List (Ty × Ty)) (r c : Ty) : Option Bool :=
  if r = c then some true
  else if r = Ty.value then some true
  else
    match c with
    | .union cts => allSubF (fun t => go memo r t) cts
    | _ =>
      match r, c with
      | .union rts, _ => anySubF (fun t => go memo t c) rts
      | .list rt, .list ct => go memo rt ct
      | .set rt, .set ct => go memo rt ct
      | .ref rt, .ref ct => go memo rt ct
      | .map rk rv, .map ck cv => oand (go memo rk ck) (go memo rv cv)
      | .strct rn rfs, .strct cn cfs =>
        if rn ≠ "" ∧ rn ≠ cn then some false
        else if (Ty.strct rn rfs, Ty.strct cn cfs) ∈ memo then some true
        else
          fieldsSubF
            (fun a b => go ((Ty.strct rn rfs, Ty.strct cn cfs) :: memo) a b)
            (structUnfold rn rfs) (structUnfold cn cfs)
      | _, _ => some false

/-- Modelled from the spec: the subtype judge, embedded with an explicit
fuel argument; `none` means the fuel ran out, and the termination theorem
shows `fuelBound` fuel always suffices on closed types. -/
def isSubtypeMemoF : Nat → List (Ty × Ty) → Ty → Ty → Option Bool
  | 0, _, _, _ => none
  | fuel+1, memo, r, c => isSubStep (fun m a b => isSubtypeMemoF fuel m a b) memo r c

/-- Environment lookup for enclosing struct bindings (innermost first). -/
def lookupEnv (n : String) : List (String × Ty) → Option Ty
  | [] => none
  | p :: env => if p.1 = n then some p.2 else lookupEnv n env

/-- Removal of all bindings of a name from an environment (an inner struct
binder shadows every outer binding of the same name). -/
def removeKey (n : String) (env : List (String × Ty)) : List (String × Ty) :=
  env.filter (fun p => decide (p.1 ≠ n))

mutual
/-- Parallel substitution of an environment of enclosing struct bindings,
closing a subterm into the type it denotes during judgment. -/
def msubst : List (String × Ty) → Ty → Ty
  | env, .cycle m =>
    match lookupEnv m env with
    | some s => s
    | none => .cycle m
  | env, .strct n fs => .strct n (msubstFields (removeKey n env) fs)
  | env, .list t => .list (msubst env t)
  | env, .set t => .set (msubst env t)
  | env, .ref t => .ref (msubst env t)
  | env, .map k v => .map (msubst env k) (msubst env v)
  | env, .union ts => .union (msubstTyList env ts)
  | _, t => t

def msubstTyList : List (String × Ty) → TyList → TyList
  | _, .nil => .nil
  | env, .cons t ts => .cons (msubst env t) (msubstTyList env ts)

def msubstFields : List (String × Ty) → Fields → Fields
  | _, .nil => .nil
  | env, .cons m t o fs => .cons m (msubst env t) o (msubstFields env fs)
end

mutual
/-- Reachable closed forms of the subterms of a type: every type the judge
can encounter on one side when started on (the closure of) the argument.
Finiteness of this list is what bounds the memo and hence the recursion
depth. -/
def RTy : List (String × Ty) → Ty → List Ty
  | env, .list t => msubst env (.list t) :: RTy env t
  | env, .set t => msubst env (.set t) :: RTy env t
  | env, .ref t => msubst env (.ref t) :: RTy env t
  | env, .map k v => msubst env (.map k v) :: (RTy env k ++ RTy env v)
  | env, .union ts => msubst env (.union ts) :: RTyList env ts
  | env, .strct n fs =>
    msubst env (.strct n fs) :: RFields ((n, msubst env (.strct n fs)) :: env) fs
  | env, t => [msubst env t]

def RTyList : List (String × Ty) → TyList → List Ty
  | _, .nil => []
  | env, .cons t ts => RTy env t ++ RTyList env ts

def RFields : List (String × Ty) → Fields → List Ty
  | _, .nil => []
  | env, .cons _ t _ fs => RTy env t ++ RFields env fs
end

/-- Largest node count among a list of types. -/
def maxSizeOf (l : List Ty) : Nat := l.foldr (fun t m => max (tySize t) m) 0

/-- Computable fuel bound for the judge: (number of possible memo entries)
times (a bound on any size-decreasing chain between memo insertions), plus
the starting sizes.  The termination theorem proves it sufficient on
closed types. -/
def fuelBound (r c : Ty) : Nat :=
  let r1 := RTy [] r
  let r2 := RTy [] c
  (r1.length * r2.length + 1) * (maxSizeOf r1 + maxSizeOf r2 + 1) +
    tySize r + tySize c + 1

/-- Modelled from the spec: the public entry point `isSubtype(required,
concrete)`; allocates an empty memo and delegates, with the proved
sufficient fuel. -/
def isSubtype (required concrete : Ty) : Bool :=
  (isSubtypeMemoF (fuelBound required concrete) [] required concrete).getD false

/-- Exported name of the public entry point, as the sources call it. -/
def IsSubtype (required concrete : Ty) : Bool := isSubtype required concrete

mutual
/-- Modelled from the spec: the boundary view of values; the judge
inspects a value only through its observable kind and element type
witness, so a value is embedded as its observable tree. -/
inductive Value : Type where
  | bool (b : Bool) : Value
  | number (n : Int) : Value
  | str (s : String) : Value
  | blob (bytes : List Nat) : Value
  | list (vs : ValueList) : Value
  | set (vs : ValueList) : Value
  | map (entries : ValueEntries) : Value
  | strct (name : String) (fields : ValueFields) : Value
  | ref (v : Value) : Value
  | typ (t : Ty) : Value
  deriving DecidableEq

inductive ValueList : Type where
  | nil : ValueList
  | cons (v : Value) (vs : ValueList) : ValueList
  deriving DecidableEq

inductive ValueEntries : Type where
  | nil : ValueEntries
  | cons (k : Value) (v : Value) (es : ValueEntries) : ValueEntries
  deriving DecidableEq

inductive ValueFields : Type where
  | nil : ValueFields
  | cons (name : String) (v : Value) (fs : ValueFields) : ValueFields
  deriving DecidableEq
end

mutual
/-- Modelled from the spec: the type witness of a value ("a List/Set
yields an element type, the union of element types present; a Map yields
key and value types likewise; a Struct yields its name and field types").
An empty collection yields the empty union. -/
def typeOf : Value → Ty
  | .bool _ => Ty.bool
  | .number _ => Ty.number
  | .str _ => Ty.str
  | .blob _ => Ty.blob
  | .list vs => Ty.list (MakeUnionType (typeOfList vs))
  | .set vs => Ty.set (MakeUnionType (typeOfList vs))
  | .map es => Ty.map (MakeUnionType (typeOfKeys es)) (MakeUnionType (typeOfVals es))
  | .strct n fs => MakeStructType n (typeOfFields fs)
  | .ref v => Ty.ref (typeOf v)
  | .typ _ => Ty.typ

def typeOfList : ValueList → TyList
  | .nil => .nil
  | .cons v vs => .cons (typeOf v) (typeOfList vs)

def typeOfKeys : ValueEntries → TyList
  | .nil => .nil
  | .cons k _ es => .cons (typeOf k) (typeOfKeys es)

def typeOfVals : ValueEntries → TyList
  | .nil => .nil
  | .cons _ v es => .cons (typeOf v) (typeOfVals es)

def typeOfFields : ValueFields → List StructField
  | .nil => []
  | .cons n v fs => (n, typeOf v, false) :: typeOfFields fs
end

/-- Modelled from the spec: `assertSubtype(t, value)` lifts the value to
its type witness and calls `isSubtype(t, witness)`; it fails abort-style
(embedded as `Except.error`) exactly when the judge returns false. -/
def assertSubtype (t : Ty) (v : Value) : Except String Unit :=
  if isSubtype t (typeOf v) then Except.ok () else Except.error "invalid type for value"

theorem natListLtB_irrefl : ∀ l : List Nat, natListLtB l l = false
  | [] => rfl
  | a :: as => by simp [natListLtB, natListLtB_irrefl as]

theorem strLtB_irrefl (s : String) : strLtB s s = false := natListLtB_irrefl _

theorem fuelBound_pos (r c : Ty) : 0 < fuelBound r c := by
  simp only [fuelBound]
  omega

/-- Any positive fuel is one more than something. -/
theorem exists_succ_of_pos {n : Nat} (h : 0 < n) : ∃ k, n = k + 1 :=
  ⟨n - 1, by omega⟩

/-- The empty union in required position rejects every non-union concrete
type: no arm of the required union accepts it. -/
theorem emptyUnion_required_false :
    ∀ (f : Nat) (memo : List (Ty × Ty)) (t : Ty), 0 < f → (∀ ts, t ≠ Ty.union ts) →
      isSubtypeMemoF f memo (Ty.union TyList.nil) t = some false := by
  intro f memo t hf ht
  obtain ⟨k, rfl⟩ := exists_succ_of_pos hf
  cases t <;> first
    | exact absurd rfl (ht _)
    | simp [isSubtypeMemoF, isSubStep, anySubF]

/-- The type witness of a value is never a union at top level. -/
theorem typeOf_not_union : ∀ (v : Value) (ts : TyList), typeOf v ≠ Ty.union ts := by
  intro v ts
  cases v <;> simp [typeOf, MakeStructType]

/-- C3: The empty union MakeUnionType() is the bottom type with an
asymmetric role: as (part of) the concrete side it vacuously satisfies any
required type, so isSubtype(MakeListType(NumberType),
MakeListType(MakeUnionType())) = true; as (part of) the required side it
accepts nothing, so isSubtype(MakeListType(MakeUnionType()),
MakeListType(NumberType)) = false, and assertSubtype(MakeUnionType(), v)
fails for every value v. -/
theorem claim_C3_empty_union_bottom :
    isSubtype (MakeListType NumberType) (MakeListType (MakeUnionType TyList.nil)) = true ∧
    isSubtype (MakeListType (MakeUnionType TyList.nil)) (MakeListType NumberType) = false ∧
    ∀ v : Value, assertSubtype (MakeUnionType TyList.nil) v = Except.error "invalid type for value" := by
  refine ⟨by decide, by decide, fun v => ?_⟩
  have h2 : isSubtype (MakeUnionType TyList.nil) (typeOf v) = false := by
    unfold isSubtype
    rw [show MakeUnionType TyList.nil = Ty.union TyList.nil from rfl,
      emptyUnion_required_false _ _ _ (fuelBound_pos _ _) (typeOf_not_union v)]
    rfl
  simp [assertSubtype, h2]

/-- C4: On recursive struct types built with cycle placeholders, the judge
decides as specified: for t1 = Struct S (x: Cycle S, y: Number) and t2 =
Struct S (x: Cycle S, y: Number or String), isSubtype(t2, t1) = true and
isSubtype(t1, t2) = false; and for tb = Struct A (b: Struct B (c: Cycle A))
versus tc = Struct A (c: Struct B (b: Cycle A)) with differing inner field
names, both isSubtype(tb, tc) and isSubtype(tc, tb) are false. -/
theorem claim_C4_cycle_struct_examples :
    isSubtype
      (MakeStructType "S" [("x", MakeCycleType "S", false),
        ("y", MakeUnionType (TyList.cons NumberType (TyList.cons StringType TyList.nil)), false)])
      (MakeStructType "S" [("x", MakeCycleType "S", false), ("y", NumberType, false)]) = true ∧
    isSubtype
      (MakeStructType "S" [("x", MakeCycleType "S", false), ("y", NumberType, false)])
      (MakeStructType "S" [("x", MakeCycleType "S", false),
        ("y", MakeUnionType (TyList.cons NumberType (TyList.cons StringType TyList.nil)), false)]) = false ∧
    isSubtype
      (MakeStructType "A" [("b", MakeStructType "B" [("c", MakeCycleType "A", false)], false)])
      (MakeStructType "A" [("c", MakeStructType "B" [("b", MakeCycleType "A", false)], false)]) = false ∧
    isSubtype
      (MakeStructType "A" [("c", MakeStructType "B" [("b", MakeCycleType "A", false)], false)])
      (MakeStructType "A" [("b", MakeStructType "B" [("c", MakeCycleType "A", false)], false)]) = false := by
  refine ⟨by decide, by decide, by decide, by decide⟩

/-- C6: In struct subtyping, a required (non-optional) field is never
satisfied by an optional concrete field, while an optional required field
is satisfied by a required concrete field, by a matching optional concrete
field, or by the field's absence; hence for s1 = Struct (a?: Number) and
s2 = Struct (a: Number), isSubtype(s1, s2) = true and isSubtype(s2, s1) =
false.  The first four conjuncts state the rules on the field walk at the
point where the required field is processed; the last two are the judged
instances. -/
theorem claim_C6_optional_fields :
    (∀ (f : Ty → Ty → Option Bool) (n : String) (rt ct : Ty) (rs cs : Fields) (co : Bool),
      co = true →
      fieldsSubF f (Fields.cons n rt false rs) (Fields.cons n ct co cs) = some false) ∧
    (∀ (f : Ty → Ty → Option Bool) (n : String) (rt ct : Ty) (rs cs : Fields),
      fieldsSubF f (Fields.cons n rt true rs) (Fields.cons n ct false cs) =
        oand (f rt ct) (fieldsSubF f rs cs)) ∧
    (∀ (f : Ty → Ty → Option Bool) (n : String) (rt ct : Ty) (rs cs : Fields),
      fieldsSubF f (Fields.cons n rt true rs) (Fields.cons n ct true cs) =
        oand (f rt ct) (fieldsSubF f rs cs)) ∧
    (∀ (f : Ty → Ty → Option Bool) (n : String) (rt : Ty) (rs : Fields) (cfs : Fields),
      seekField n cfs = Fields.nil →
      fieldsSubF f (Fields.cons n rt true rs) cfs = fieldsSubF f rs Fields.nil) ∧
    isSubtype (MakeStructType "" [("a", NumberType, true)])
      (MakeStructType "" [("a", NumberType, false)]) = true ∧
    isSubtype (MakeStructType "" [("a", NumberType, false)])
      (MakeStructType "" [("a", NumberType, true)]) = false := by
  refine ⟨?_, ?_, ?_, ?_, by decide, by decide⟩
  · intro f n rt ct rs cs co hco
    subst hco
    simp [fieldsSubF, seekField, strLtB_irrefl]
  · intro f n rt ct rs cs
    simp [fieldsSubF, seekField, strLtB_irrefl]
  · intro f n rt ct rs cs
    simp [fieldsSubF, seekField, strLtB_irrefl]
  · intro f n rt rs cfs h
    simp [fieldsSubF, h]

/-- C7: Struct subtyping obeys the name rule and width rule: when the
required struct's name is non-empty it must equal the concrete struct's
name (first conjunct: mismatching non-empty required name judges false),
while an empty required name matches any concrete name (second conjunct:
the judge proceeds to the field walk for any concrete name); and concrete
fields that do not appear in the required struct never cause the check to
fail (third conjunct: once the required fields are exhausted any leftover
concrete fields succeed; fourth conjunct: a concrete field sorting before
the required cursor is skipped).  The final conjuncts judge the
width-subtyping instances from the sources. -/
theorem claim_C7_name_and_width_rules :
    (∀ (rn cn : String) (rfs cfs : Fields), rn ≠ "" → rn ≠ cn →
      isSubtype (Ty.strct rn rfs) (Ty.strct cn cfs) = false) ∧
    (∀ (f : Nat) (rfs cfs : Fields) (cn : String),
      Ty.strct "" rfs ≠ Ty.strct cn cfs →
      isSubtypeMemoF (f + 1) [] (Ty.strct "" rfs) (Ty.strct cn cfs) =
        fieldsSubF
          (fun a b => isSubtypeMemoF f [(Ty.strct "" rfs, Ty.strct cn cfs)] a b)
          (structUnfold "" rfs) (structUnfold cn cfs)) ∧
    (∀ (f : Ty → Ty → Option Bool) (cfs : Fields), fieldsSubF f Fields.nil cfs = some true) ∧
    (∀ (f : Ty → Ty → Option Bool) (rn cn : String) (rt ct : Ty) (ro co : Bool)
      (rs cs : Fields), strLtB cn rn = true →
      fieldsSubF f (Fields.cons rn rt ro rs) (Fields.cons cn ct co cs) =
        fieldsSubF f (Fields.cons rn rt ro rs) cs) ∧
    isSubtype (MakeStructType "" [("x", NumberType, false)])
      (MakeStructType "" [("x", NumberType, false), ("s", StringType, false)]) = true ∧
    isSubtype (MakeStructType "" [("s", StringType, false), ("x", NumberType, false)])
      (MakeStructType "" [("x", NumberType, false), ("s", StringType, false)]) = true ∧
    isSubtype (MakeStructType "" [("x", NumberType, false)]) (MakeStructType "" []) = false := by
  refine ⟨?_, ?_, ?_, ?_, by decide, by decide, by decide⟩
  · intro rn cn rfs cfs hne hnc
    unfold isSubtype
    obtain ⟨k, hk⟩ := exists_succ_of_pos (fuelBound_pos (Ty.strct rn rfs) (Ty.strct cn cfs))
    rw [hk]
    have h1 : (Ty.strct rn rfs = Ty.strct cn cfs) = False := by
      simp [Ty.strct.injEq]
      intro h
      exact absurd h hnc
    simp [isSubtypeMemoF, isSubStep, h1, hne, hnc]
  · intro f rfs cfs cn hne
    simp [isSubtypeMemoF, isSubStep, hne]
  · intro f cfs
    simp [fieldsSubF]
  · intro f rn cn rt ct ro co rs cs h
    conv => lhs; simp only [fieldsSubF, seekField, h]
    simp [fieldsSubF]

/-- Witness for C6 at a concrete instance: the first rule applied to a
one-field pair of structs with a required field facing an optional one. -/
theorem claim_C6_optional_fields_witness :
    fieldsSubF (fun _ _ => some true) (Fields.cons "a" Ty.number false Fields.nil)
      (Fields.cons "a" Ty.number true Fields.nil) = some false :=
  claim_C6_optional_fields.1 (fun _ _ => some true) "a" Ty.number Ty.number
    Fields.nil Fields.nil true rfl

/-- Witness for C7 at a concrete instance: a required name `Name` against
a concrete name `foo` judges false. -/
theorem claim_C7_name_and_width_rules_witness :
    isSubtype (Ty.strct "Name" Fields.nil) (Ty.strct "foo" Fields.nil) = false :=
  claim_C7_name_and_width_rules.1 "Name" "foo" Fields.nil Fields.nil
    (by decide) (by decide)

/-- Hash at the batch-store boundary; the zero hash is the empty hash
(`hash.Hash` is a byte array whose zero value is "empty"). -/
abbrev Hash : Type := Nat

/-- Empty (zero) hash. -/
def emptyHash : Hash := 0

/-- Observable part of an HTTP response for the root request: status code,
the noms version header, and the body text. -/
structure HttpResponse where
  statusCode : Nat
  nomsVersionHeader : String
  body : String
  deriving DecidableEq

/-- Externally visible actions of the batch store during `UpdateRoot`:
flushing the outstanding scheduled writes, and posting the new root. -/
inductive StoreEvent : Type where
  | flushWrites (chunks : List Nat) : StoreEvent
  | postRoot (current last : Hash) : StoreEvent
  deriving DecidableEq

/-- State of the batch store relevant to `UpdateRoot`: the cache of
unwritten puts scheduled by `SchedulePut`. -/
structure BatchStoreState where
  unwrittenPuts : List Nat
  deriving DecidableEq

/-- The version check `expectVersion`: the response's noms version header
must equal the SDK version, otherwise the call panics. -/
def expectVersion (sdkVersion : String) (res : HttpResponse) : Except String Unit :=
  if res.nomsVersionHeader = sdkVersion then Except.ok ()
  else Except.error "version mismatch"

/-- The batch store's `UpdateRoot(current, last)`, embedded with the
server's response passed explicitly and panics embedded as
`Except.error`.  It flushes all outstanding writes first, then
`requestRoot` panics when `current` is the empty hash (before any request
is posted), then the version header is checked, and the status code
decides: 200 gives true, 409 gives false, anything else fails. -/
def UpdateRoot (sdkVersion : String) (st : BatchStoreState) (current last : Hash)
    (res : HttpResponse) : List StoreEvent × Except String (BatchStoreState × Bool) :=
  if current = emptyHash then
    ([StoreEvent.flushWrites st.unwrittenPuts], Except.error "Unexpected empty value")
  else
    let evs := [StoreEvent.flushWrites st.unwrittenPuts, StoreEvent.postRoot current last]
    match expectVersion sdkVersion res with
    | Except.error e => (evs, Except.error e)
    | Except.ok _ =>
      if res.statusCode = 200 then (evs, Except.ok (⟨[]⟩, true))
      else if res.statusCode = 409 then (evs, Except.ok (⟨[]⟩, false))
      else (evs, Except.error ("Unexpected response: " ++ res.body))

/-- C10: httpBatchStore.UpdateRoot(current, last) first flushes all
outstanding scheduled writes (the flush event precedes the root post in
the event trace), panics when current is the empty hash, and otherwise
returns true exactly when the server responds HTTP 200 and false exactly
when the server responds HTTP 409, failing on every other status code. -/
theorem claim_C10_update_root :
    ∀ (ver : String) (st : BatchStoreState) (current last : Hash) (res : HttpResponse),
      (current = emptyHash →
        UpdateRoot ver st current last res =
          ([StoreEvent.flushWrites st.unwrittenPuts], Except.error "Unexpected empty value")) ∧
      (current ≠ emptyHash → res.nomsVersionHeader = ver →
        (UpdateRoot ver st current last res).1 =
          [StoreEvent.flushWrites st.unwrittenPuts, StoreEvent.postRoot current last] ∧
        ((UpdateRoot ver st current last res).2 = Except.ok (⟨[]⟩, true) ↔
          res.statusCode = 200) ∧
        ((UpdateRoot ver st current last res).2 = Except.ok (⟨[]⟩, false) ↔
          res.statusCode = 409) ∧
        (res.statusCode ≠ 200 → res.statusCode ≠ 409 →
          (UpdateRoot ver st current last res).2 =
            Except.error ("Unexpected response: " ++ res.body))) := by
  intro ver st current last res
  constructor
  · intro h
    simp [UpdateRoot, h]
  · intro hne hver
    have hexp : expectVersion ver res = Except.ok () := by
      simp [expectVersion, hver]
    refine ⟨by simp [UpdateRoot, hne, hexp]; split_ifs <;> rfl, ?_, ?_, ?_⟩
    · by_cases h200 : res.statusCode = 200
      · simp [UpdateRoot, hne, hexp, h200]
      · by_cases h409 : res.statusCode = 409
        · simp [UpdateRoot, hne, hexp, h200, h409]
        · simp [UpdateRoot, hne, hexp, h200, h409]
    · by_cases h200 : res.statusCode = 200
      · simp [UpdateRoot, hne, hexp, h200]
      · by_cases h409 : res.statusCode = 409
        · simp [UpdateRoot, hne, hexp, h200, h409]
        · simp [UpdateRoot, hne, hexp, h200, h409]
    · intro h200 h409
      simp [UpdateRoot, hne, hexp, h200, h409]

/-- Witness for C10 at a concrete instance: a successful 200 response on a
non-empty current hash returns true. -/
theorem claim_C10_update_root_witness :
    (UpdateRoot "7.18" ⟨[1, 2]⟩ 1 0 ⟨200, "7.18", "ok"⟩).2 =
      Except.ok (⟨[]⟩, true) :=
  ((claim_C10_update_root "7.18" ⟨[1, 2]⟩ 1 0 ⟨200, "7.18", "ok"⟩).2
    (by decide) rfl).2.1.mpr rfl

theorem TyList.ofList_toList : ∀ ts : TyList, TyList.ofList ts.toList = ts
  | .nil => rfl
  | .cons t ts => by simp [TyList.toList, TyList.ofList, TyList.ofList_toList ts]

mutual
theorem flattenOne_not_union : ∀ (t : Ty) (x : Ty), x ∈ flattenOne t → ∀ us, x ≠ Ty.union us
  | .union ts => flattenList_not_union ts
  | .bool => by intro x hx us; simp [flattenOne] at hx; simp [hx]
  | .number => by intro x hx us; simp [flattenOne] at hx; simp [hx]
  | .str => by intro x hx us; simp [flattenOne] at hx; simp [hx]
  | .blob => by intro x hx us; simp [flattenOne] at hx; simp [hx]
  | .value => by intro x hx us; simp [flattenOne] at hx; simp [hx]
  | .typ => by intro x hx us; simp [flattenOne] at hx; simp [hx]
  | .list t => by intro x hx us; simp [flattenOne] at hx; simp [hx]
  | .set t => by intro x hx us; simp [flattenOne] at hx; simp [hx]
  | .ref t => by intro x hx us; simp [flattenOne] at hx; simp [hx]
  | .map k v => by intro x hx us; simp [flattenOne] at hx; simp [hx]
  | .strct n fs => by intro x hx us; simp [flattenOne] at hx; simp [hx]
  | .cycle n => by intro x hx us; simp [flattenOne] at hx; simp [hx]

theorem flattenList_not_union : ∀ (ts : TyList) (x : Ty), x ∈ flattenList ts → ∀ us, x ≠ Ty.union us
  | .nil => by intro x hx; simp [flattenList] at hx
  | .cons t ts => by
    intro x hx us
    rcases List.mem_append.mp (by simpa [flattenList] using hx) with h | h
    · exact flattenOne_not_union t x h us
    · exact flattenList_not_union ts x h us
end

/-- Flattening a list whose members are not unions is the identity. -/
theorem flattenList_eq_toList : ∀ ts : TyList,
    (∀ x ∈ ts.toList, ∀ us, x ≠ Ty.union us) → flattenList ts = ts.toList
  | .nil, _ => rfl
  | .cons t ts, h => by
    have hne := h t (by simp [TyList.toList])
    have ht : flattenOne t = [t] := by
      cases t
      case union us => exact absurd rfl (hne us)
      all_goals rfl
    simp only [flattenList, ht, TyList.toList]
    simp [flattenList_eq_toList ts (fun x hx us => h x (by simp [TyList.toList, hx]) us)]

/-- Canonicalization of a list of (already flattened) union arms:
deduplicate, then sort by the total order. -/
def armsCanon (l : List Ty) : List Ty := List.insertionSort tyle (List.dedup l)

theorem mem_armsCanon {a : Ty} {l : List Ty} : a ∈ armsCanon l ↔ a ∈ l := by
  unfold armsCanon
  rw [(List.perm_insertionSort tyle (List.dedup l)).mem_iff, List.mem_dedup]

theorem sorted_armsCanon (l : List Ty) : List.Sorted tyle (armsCanon l) :=
  List.sorted_insertionSort tyle (List.dedup l)

theorem nodup_armsCanon (l : List Ty) : (armsCanon l).Nodup :=
  ((List.perm_insertionSort tyle (List.dedup l)).nodup_iff).mpr (List.nodup_dedup l)

/-- Canonicalization is determined by membership alone: two arm lists with
the same members canonicalize identically. -/
theorem armsCanon_congr {X Y : List Ty} (h : ∀ a, a ∈ X ↔ a ∈ Y) :
    armsCanon X = armsCanon Y := by
  apply List.eq_of_perm_of_sorted ?_ (sorted_armsCanon X) (sorted_armsCanon Y)
  refine ((nodup_armsCanon X).subperm ?_).antisymm ((nodup_armsCanon Y).subperm ?_)
  · intro a ha
    exact mem_armsCanon.mpr ((h a).mp (mem_armsCanon.mp ha))
  · intro a ha
    exact mem_armsCanon.mpr ((h a).mpr (mem_armsCanon.mp ha))

theorem armsCanon_eq_self {l : List Ty} (hs : List.Sorted tyle l) (hn : l.Nodup) :
    armsCanon l = l := by
  unfold armsCanon
  rw [List.dedup_eq_self.mpr hn, hs.insertionSort_eq]

/-- Canonical shape of a union type as the builder produces it: if the
type is a union, its arm list is flat (no union arms), sorted, duplicate
free and not of length one. -/
def UnionCanonical (t : Ty) : Prop :=
  ∀ ts, t = Ty.union ts →
    (∀ x ∈ ts.toList, ∀ us, x ≠ Ty.union us) ∧ List.Sorted tyle ts.toList ∧
      ts.toList.Nodup ∧ ts.toList.length ≠ 1

/-- The builder's unions are canonical. -/
theorem makeUnionType_eq_match (ts : TyList) :
    MakeUnionType ts =
      match armsCanon (flattenList ts) with
      | [t] => t
      | arms => Ty.union (TyList.ofList arms) := rfl

theorem makeUnionType_canonical (ts : TyList) : UnionCanonical (MakeUnionType ts) := by
  intro us h
  rw [makeUnionType_eq_match ts] at h
  rcases hL : armsCanon (flattenList ts) with _ | ⟨a, l⟩
  · rw [hL] at h
    simp at h
    subst h
    simp [TyList.toList]
  · rcases l with _ | ⟨b, l'⟩
    · rw [hL] at h
      simp at h
      have ha : a ∈ armsCanon (flattenList ts) := by rw [hL]; simp
      exact absurd h (flattenList_not_union ts a (mem_armsCanon.mp ha) us)
    · rw [hL] at h
      simp at h
      subst h
      rw [TyList.toList_ofList]
      have hmem : ∀ x ∈ a :: b :: l', x ∈ flattenList ts := by
        intro x hx
        exact mem_armsCanon.mp (hL ▸ hx)
      refine ⟨fun x hx us hxu => flattenList_not_union ts x (hmem x hx) us hxu, ?_, ?_, by simp⟩
      · rw [← hL]
        exact sorted_armsCanon _
      · rw [← hL]
        exact nodup_armsCanon _

theorem flattenOne_eq_single {t : Ty} (h : ∀ us, t ≠ Ty.union us) : flattenOne t = [t] := by
  cases t
  case union us => exact absurd rfl (h us)
  all_goals rfl

/-- Canonicalizing the flattening of a canonical type and rebuilding the
union gives the type back. -/
theorem rebuild_canonical {A : Ty} (hA : UnionCanonical A) :
    (match armsCanon (flattenOne A) with
      | [t] => t
      | arms => Ty.union (TyList.ofList arms)) = A := by
  by_cases hU : ∃ as, A = Ty.union as
  · obtain ⟨as, rfl⟩ := hU
    obtain ⟨hnu, hsort, hnd, hlen⟩ := hA as rfl
    have hf : flattenOne (Ty.union as) = as.toList := flattenList_eq_toList as hnu
    rw [hf, armsCanon_eq_self hsort hnd]
    rcases hl : as.toList with _ | ⟨a, _ | ⟨b, l⟩⟩
    · have : as = TyList.nil := by
        have := TyList.ofList_toList as
        rw [hl] at this
        exact this.symm
      simp [this, TyList.ofList]
    · exact absurd (by rw [hl]; rfl) hlen
    · have := TyList.ofList_toList as
      rw [hl] at this
      simp [this]
  · push_neg at hU
    have hf : flattenOne A = [A] := flattenOne_eq_single (fun us h => hU us h)
    rw [hf]
    have : armsCanon [A] = [A] :=
      armsCanon_eq_self (List.sorted_singleton A) (List.nodup_singleton A)
    rw [this]

/-- Membership in the flattening of a built union is membership in the
flattening of its arguments. -/
theorem mem_flattenOne_makeUnionType {a : Ty} (ts : TyList) :
    a ∈ flattenOne (MakeUnionType ts) ↔ a ∈ flattenList ts := by
  rw [makeUnionType_eq_match ts]
  rcases hL : armsCanon (flattenList ts) with _ | ⟨x, _ | ⟨y, l⟩⟩
  · have hmem : ∀ b : Ty, b ∈ flattenList ts ↔ b ∈ ([] : List Ty) := by
      intro b
      rw [← hL, mem_armsCanon]
    show a ∈ flattenOne (Ty.union (TyList.ofList [])) ↔ _
    simp only [flattenOne, TyList.ofList, flattenList, List.not_mem_nil, false_iff]
    intro h
    simpa using (hmem a).mp h
  · have hx : ∀ us, x ≠ Ty.union us :=
      flattenList_not_union ts x (mem_armsCanon.mp (by rw [hL]; simp))
    rw [flattenOne_eq_single hx]
    have hmem : ∀ b : Ty, b ∈ flattenList ts ↔ b ∈ [x] := by
      intro b
      rw [← hL, mem_armsCanon]
    rw [hmem a]
  · have hnu : ∀ b ∈ (TyList.ofList (x :: y :: l)).toList, ∀ us, b ≠ Ty.union us := by
      intro b hb us
      rw [TyList.toList_ofList] at hb
      exact flattenList_not_union ts b (mem_armsCanon.mp (by rw [hL]; exact hb)) us
    show a ∈ flattenList (TyList.ofList (x :: y :: l)) ↔ _
    rw [flattenList_eq_toList _ hnu, TyList.toList_ofList, ← hL, mem_armsCanon]

/-- C8: MakeUnionType normalizes its arguments so that, under structural
type equality, MakeUnionType(A, A) equals A, MakeUnionType(A) equals A (a
one-arm union collapses to its arm and unions never nest with arity 1),
and MakeUnionType(A, MakeUnionType(B, C)) equals MakeUnionType(A, B, C)
(nested unions flatten).  The hypothesis states that A is a
builder-canonical type (every type the builder produces is, by
makeUnionType_canonical). -/
theorem claim_C8_union_normalization :
    ∀ A B C : Ty, UnionCanonical A →
      MakeUnionType (TyList.cons A (TyList.cons A TyList.nil)) = A ∧
      MakeUnionType (TyList.cons A TyList.nil) = A ∧
      MakeUnionType (TyList.cons A (TyList.cons
          (MakeUnionType (TyList.cons B (TyList.cons C TyList.nil))) TyList.nil)) =
        MakeUnionType (TyList.cons A (TyList.cons B (TyList.cons C TyList.nil))) := by
  intro A B C hA
  refine ⟨?_, ?_, ?_⟩
  · rw [makeUnionType_eq_match]
    have hm : armsCanon (flattenList (TyList.cons A (TyList.cons A TyList.nil))) =
        armsCanon (flattenOne A) := by
      apply armsCanon_congr
      intro a
      simp [flattenList]
    rw [hm]
    exact rebuild_canonical hA
  · rw [makeUnionType_eq_match]
    have hm : armsCanon (flattenList (TyList.cons A TyList.nil)) =
        armsCanon (flattenOne A) := by
      apply armsCanon_congr
      intro a
      simp [flattenList]
    rw [hm]
    exact rebuild_canonical hA
  · rw [makeUnionType_eq_match, makeUnionType_eq_match
      (TyList.cons A (TyList.cons B (TyList.cons C TyList.nil)))]
    have hm : armsCanon (flattenList (TyList.cons A (TyList.cons
        (MakeUnionType (TyList.cons B (TyList.cons C TyList.nil))) TyList.nil))) =
        armsCanon (flattenList (TyList.cons A (TyList.cons B (TyList.cons C TyList.nil)))) := by
      apply armsCanon_congr
      intro a
      simp only [flattenList, List.append_nil, List.mem_append]
      rw [mem_flattenOne_makeUnionType]
      simp [flattenList, or_assoc]
    rw [hm]

/-- Witness for C8: the equations at A = Union(Number, String) (canonical
by construction), B = Bool, C = Number. -/
theorem claim_C8_union_normalization_witness :
    MakeUnionType (TyList.cons (MakeUnionType (TyList.cons NumberType (TyList.cons StringType TyList.nil)))
      (TyList.cons (MakeUnionType (TyList.cons NumberType (TyList.cons StringType TyList.nil))) TyList.nil)) =
      MakeUnionType (TyList.cons NumberType (TyList.cons StringType TyList.nil)) ∧
    MakeUnionType (TyList.cons (MakeUnionType (TyList.cons NumberType (TyList.cons StringType TyList.nil))) TyList.nil) =
      MakeUnionType (TyList.cons NumberType (TyList.cons StringType TyList.nil)) ∧
    MakeUnionType (TyList.cons (MakeUnionType (TyList.cons NumberType (TyList.cons StringType TyList.nil)))
        (TyList.cons (MakeUnionType (TyList.cons BoolType (TyList.cons NumberType TyList.nil))) TyList.nil)) =
      MakeUnionType (TyList.cons (MakeUnionType (TyList.cons NumberType (TyList.cons StringType TyList.nil)))
        (TyList.cons BoolType (TyList.cons NumberType TyList.nil))) :=
  claim_C8_union_normalization
    (MakeUnionType (TyList.cons NumberType (TyList.cons StringType TyList.nil)))
    BoolType NumberType
    (makeUnionType_canonical (TyList.cons NumberType (TyList.cons StringType TyList.nil)))

/-- Information order on fuel approximants: `none` (fuel ran out) is below
everything, definite answers only below themselves. -/
def OApprox (x y : Option Bool) : Prop := x = none ∨ x = y

theorem OApprox.refl (x : Option Bool) : OApprox x x := Or.inr rfl

theorem oand_false_left (y : Option Bool) : oand (some false) y = some false := by
  cases y with
  | none => rfl
  | some b => cases b <;> rfl

theorem oand_false_right (x : Option Bool) : oand x (some false) = some false := by
  cases x with
  | none => rfl
  | some b => cases b <;> rfl

theorem oor_true_left (y : Option Bool) : oor (some true) y = some true := by
  cases y with
  | none => rfl
  | some b => cases b <;> rfl

theorem oor_true_right (x : Option Bool) : oor x (some true) = some true := by
  cases x with
  | none => rfl
  | some b => cases b <;> rfl

theorem oand_approx {a a' b b' : Option Bool} (ha : OApprox a a') (hb : OApprox b b') :
    OApprox (oand a b) (oand a' b') := by
  rcases ha with ha | ha
  · subst ha
    cases b with
    | none => exact Or.inl rfl
    | some bb =>
      cases bb
      · rcases hb with hb | hb
        · exact absurd hb (by simp)
        · rw [← hb, oand_false_right, oand_false_right]
          exact Or.inr rfl
      · exact Or.inl rfl
  · subst ha
    rcases hb with hb | hb
    · subst hb
      cases a with
      | none => exact Or.inl rfl
      | some ab =>
        cases ab
        · rw [oand_false_left, oand_false_left]
          exact Or.inr rfl
        · exact Or.inl rfl
    · rw [hb]
      exact Or.inr rfl

theorem oor_approx {a a' b b' : Option Bool} (ha : OApprox a a') (hb : OApprox b b') :
    OApprox (oor a b) (oor a' b') := by
  rcases ha with ha | ha
  · subst ha
    cases b with
    | none => exact Or.inl rfl
    | some bb =>
      cases bb
      · exact Or.inl rfl
      · rcases hb with hb | hb
        · exact absurd hb (by simp)
        · rw [← hb, oor_true_right, oor_true_right]
          exact Or.inr rfl
  · subst ha
    rcases hb with hb | hb
    · subst hb
      cases a with
      | none => exact Or.inl rfl
      | some ab =>
        cases ab
        · exact Or.inl rfl
        · rw [oor_true_left, oor_true_left]
          exact Or.inr rfl
    · rw [hb]
      exact Or.inr rfl

theorem allSubF_approx {f g : Ty → Option Bool} :
    ∀ ts : TyList, (∀ t, OApprox (f t) (g t)) → OApprox (allSubF f ts) (allSubF g ts)
  | .nil, _ => Or.inr rfl
  | .cons t ts, h => oand_approx (h t) (allSubF_approx ts h)

theorem anySubF_approx {f g : Ty → Option Bool} :
    ∀ ts : TyList, (∀ t, OApprox (f t) (g t)) → OApprox (anySubF f ts) (anySubF g ts)
  | .nil, _ => Or.inr rfl
  | .cons t ts, h => oor_approx (h t) (anySubF_approx ts h)

theorem fieldsSubF_approx {f g : Ty → Ty → Option Bool}
    (h : ∀ a b, OApprox (f a b) (g a b)) :
    ∀ (rfs cfs : Fields), OApprox (fieldsSubF f rfs cfs) (fieldsSubF g rfs cfs)
  | .nil, _ => Or.inr rfl
  | .cons rn rt ro rs, cfs => by
    simp only [fieldsSubF]
    split
    · split
      · exact fieldsSubF_approx h rs Fields.nil
      · exact Or.inr rfl
    · split
      · split
        · exact Or.inr rfl
        · exact oand_approx (h rt _) (fieldsSubF_approx h rs _)
      · split
        · exact fieldsSubF_approx h rs _
        · exact Or.inr rfl

theorem isSubStep_approx {go go' : List (Ty × Ty) → Ty → Ty → Option Bool}
    (h : ∀ m a b, OApprox (go m a b) (go' m a b)) (memo : List (Ty × Ty)) (r c : Ty) :
    OApprox (isSubStep go memo r c) (isSubStep go' memo r c) := by
  unfold isSubStep
  split
  · exact OApprox.refl _
  · split
    · exact OApprox.refl _
    · cases c <;> cases r <;> dsimp only <;>
        first
          | exact allSubF_approx _ (fun t => h _ _ t)
          | exact anySubF_approx _ (fun t => h _ t _)
          | exact h _ _ _
          | exact oand_approx (h _ _ _) (h _ _ _)
          | exact OApprox.refl _
          | skip
      all_goals
        split
        · exact OApprox.refl _
        · split
          · exact OApprox.refl _
          · exact fieldsSubF_approx (fun a b => h _ a b) _ _

/-- Fuel monotonicity: more fuel refines the approximation. -/
theorem isSubtypeMemoF_approx :
    ∀ (f f' : Nat), f ≤ f' → ∀ memo r c,
      OApprox (isSubtypeMemoF f memo r c) (isSubtypeMemoF f' memo r c) := by
  intro f
  induction f with
  | zero => intro f' _ memo r c; exact Or.inl rfl
  | succ k ih =>
    intro f' hf memo r c
    obtain ⟨k', rfl⟩ : ∃ k', f' = k' + 1 := ⟨f' - 1, by omega⟩
    simp only [isSubtypeMemoF]
    exact isSubStep_approx (fun m a b => ih k' (by omega) m a b) memo r c

/-- Fuel monotonicity, in the form used everywhere: a definite answer is
stable under more fuel. -/
theorem isSubtypeMemoF_mono {f f' : Nat} {memo : List (Ty × Ty)} {r c : Ty} {b : Bool}
    (h : isSubtypeMemoF f memo r c = some b) (hle : f ≤ f') :
    isSubtypeMemoF f' memo r c = some b := by
  rcases isSubtypeMemoF_approx f f' hle memo r c with h2 | h2
  · rw [h] at h2
    exact absurd h2 (by simp)
  · rw [← h2, h]

/-- Names bound by an environment. -/
def envKeys (env : List (String × Ty)) : List String := env.map Prod.fst

/-- All types stored in an environment are fully closed. -/
def EnvClosed (env : List (String × Ty)) : Prop := ∀ p ∈ env, closedB [] p.2 = true

theorem removeKey_cons (p : String × Ty) (n : String) (env : List (String × Ty)) :
    removeKey n (p :: env) =
      if p.1 ≠ n then p :: removeKey n env else removeKey n env := by
  simp only [removeKey, List.filter_cons]
  split
  · rename_i h
    rw [if_pos (by simpa using h)]
  · rename_i h
    rw [if_neg (by simpa using h)]

theorem lookupEnv_removeKey_self (n : String) : ∀ env, lookupEnv n (removeKey n env) = none := by
  intro env
  induction env with
  | nil => rfl
  | cons p env ih =>
    rw [removeKey_cons]
    by_cases h : p.1 = n
    · rw [if_neg (not_not_intro h)]
      exact ih
    · rw [if_pos h]
      simp only [lookupEnv]
      rw [if_neg h]
      exact ih

theorem lookupEnv_removeKey_ne {m n : String} (h : m ≠ n) :
    ∀ env, lookupEnv m (removeKey n env) = lookupEnv m env := by
  intro env
  induction env with
  | nil => rfl
  | cons p env ih =>
    rw [removeKey_cons]
    by_cases hp : p.1 = n
    · rw [if_neg (not_not_intro hp), ih]
      simp only [lookupEnv]
      rw [if_neg (fun hh : p.1 = m => h (by rw [← hh, hp]))]
    · rw [if_pos hp]
      simp only [lookupEnv]
      split
      · rfl
      · exact ih

theorem removeKey_removeKey_self (n : String) : ∀ env,
    removeKey n (removeKey n env) = removeKey n env := by
  intro env
  induction env with
  | nil => rfl
  | cons p env ih =>
    rw [removeKey_cons]
    by_cases h : p.1 = n
    · rw [if_neg (not_not_intro h)]
      exact ih
    · rw [if_pos h, removeKey_cons, if_pos h, ih]

theorem removeKey_comm (m n : String) : ∀ env,
    removeKey m (removeKey n env) = removeKey n (removeKey m env) := by
  intro env
  induction env with
  | nil => rfl
  | cons p env ih =>
    by_cases hn : p.1 = n <;> by_cases hm : p.1 = m
    · rw [removeKey_cons p n env, if_neg (not_not_intro hn),
        removeKey_cons p m env, if_neg (not_not_intro hm), ih]
    · rw [removeKey_cons p n env, if_neg (not_not_intro hn),
        removeKey_cons p m env, if_pos hm,
        removeKey_cons p n (removeKey m env), if_neg (not_not_intro hn), ih]
    · rw [removeKey_cons p n env, if_pos hn,
        removeKey_cons p m env, if_neg (not_not_intro hm),
        removeKey_cons p m (removeKey n env), if_neg (not_not_intro hm), ih]
    · rw [removeKey_cons p n env, if_pos hn,
        removeKey_cons p m env, if_pos hm,
        removeKey_cons p m (removeKey n env), if_pos hm,
        removeKey_cons p n (removeKey m env), if_pos hn, ih]

theorem removeKey_cons_self (n : String) (S : Ty) (env : List (String × Ty)) :
    removeKey n ((n, S) :: env) = removeKey n env := by
  rw [removeKey_cons]
  simp

theorem removeKey_cons_ne {m n : String} (h : n ≠ m) (S : Ty) (env : List (String × Ty)) :
    removeKey m ((n, S) :: env) = (n, S) :: removeKey m env := by
  rw [removeKey_cons]
  simp [h]

theorem mem_envKeys_removeKey {m n : String} {env : List (String × Ty)} :
    m ∈ envKeys (removeKey n env) ↔ m ∈ envKeys env ∧ m ≠ n := by
  simp only [envKeys, removeKey, List.mem_map, List.mem_filter]
  constructor
  · rintro ⟨p, ⟨hp, hd⟩, rfl⟩
    exact ⟨⟨p, hp, rfl⟩, by simpa using hd⟩
  · rintro ⟨⟨p, hp, rfl⟩, hne⟩
    exact ⟨p, ⟨hp, by simpa using hne⟩, rfl⟩

theorem lookupEnv_some_of_mem_keys {m : String} : ∀ {env : List (String × Ty)},
    m ∈ envKeys env → ∃ s, lookupEnv m env = some s := by
  intro env
  induction env with
  | nil => simp [envKeys]
  | cons p env ih =>
    intro h
    by_cases hp : p.1 = m
    · exact ⟨p.2, by simp [lookupEnv, hp]⟩
    · simp only [envKeys, List.map_cons, List.mem_cons] at h
      rcases h with h | h
      · exact absurd h.symm hp
      · obtain ⟨s, hs⟩ := ih h
        exact ⟨s, by simp [lookupEnv, hp, hs]⟩

theorem lookupEnv_none_of_not_mem {m : String} : ∀ {env : List (String × Ty)},
    m ∉ envKeys env → lookupEnv m env = none := by
  intro env
  induction env with
  | nil => intro _; rfl
  | cons p env ih =>
    intro h
    simp only [envKeys, List.map_cons, List.mem_cons] at h
    push_neg at h
    simp only [lookupEnv]
    rw [if_neg (fun hh : p.1 = m => h.1 hh.symm)]
    exact ih h.2

theorem not_mem_keys_of_lookupEnv_none {m : String} : ∀ {env : List (String × Ty)},
    lookupEnv m env = none → m ∉ envKeys env := by
  intro env h hm
  obtain ⟨s, hs⟩ := lookupEnv_some_of_mem_keys hm
  rw [h] at hs
  exact absurd hs (by simp)

theorem EnvClosed.removeKey {env : List (String × Ty)} (h : EnvClosed env) (n : String) :
    EnvClosed (removeKey n env) := by
  intro p hp
  exact h p (List.mem_of_mem_filter hp)

theorem EnvClosed.cons {env : List (String × Ty)} {n : String} {S : Ty}
    (hS : closedB [] S = true) (h : EnvClosed env) : EnvClosed ((n, S) :: env) := by
  intro p hp
  rcases List.mem_cons.mp hp with rfl | hp
  · exact hS
  · exact h p hp

theorem lookupEnv_closed {env : List (String × Ty)} {m : String} {s : Ty}
    (hE : EnvClosed env) : lookupEnv m env = some s → closedB [] s = true := by
  induction env with
  | nil => intro h; exact absurd h (by simp [lookupEnv])
  | cons p env ih =>
    intro h
    simp only [lookupEnv] at h
    split at h
    · cases h
      exact hE p (by simp)
    · exact ih (fun q hq => hE q (List.mem_cons_of_mem p hq)) h

mutual
theorem closedB_mono : ∀ (t : Ty) (bound bound' : List String),
    (∀ m ∈ bound, m ∈ bound') → closedB bound t = true → closedB bound' t = true
  | .cycle m, bound, bound', hsub, h => by
    simp only [closedB, decide_eq_true_eq] at h ⊢
    exact hsub m h
  | .strct n fs, bound, bound', hsub, h => by
    simp only [closedB] at h ⊢
    exact closedFieldsB_mono fs (n :: bound) (n :: bound')
      (fun m hm => by
        rcases List.mem_cons.mp hm with rfl | hm
        · exact List.mem_cons_self _ _
        · exact List.mem_cons_of_mem _ (hsub m hm)) h
  | .list t, bound, bound', hsub, h => closedB_mono t bound bound' hsub h
  | .set t, bound, bound', hsub, h => closedB_mono t bound bound' hsub h
  | .ref t, bound, bound', hsub, h => closedB_mono t bound bound' hsub h
  | .map k v, bound, bound', hsub, h => by
    simp only [closedB, Bool.and_eq_true] at h ⊢
    exact ⟨closedB_mono k bound bound' hsub h.1, closedB_mono v bound bound' hsub h.2⟩
  | .union ts, bound, bound', hsub, h => closedTyListB_mono ts bound bound' hsub h
  | .bool, _, _, _, _ => rfl
  | .number, _, _, _, _ => rfl
  | .str, _, _, _, _ => rfl
  | .blob, _, _, _, _ => rfl
  | .value, _, _, _, _ => rfl
  | .typ, _, _, _, _ => rfl

theorem closedTyListB_mono : ∀ (ts : TyList) (bound bound' : List String),
    (∀ m ∈ bound, m ∈ bound') → closedTyListB bound ts = true → closedTyListB bound' ts = true
  | .nil, _, _, _, _ => rfl
  | .cons t ts, bound, bound', hsub, h => by
    simp only [closedTyListB, Bool.and_eq_true] at h ⊢
    exact ⟨closedB_mono t bound bound' hsub h.1, closedTyListB_mono ts bound bound' hsub h.2⟩

theorem closedFieldsB_mono : ∀ (fs : Fields) (bound bound' : List String),
    (∀ m ∈ bound, m ∈ bound') → closedFieldsB bound fs = true → closedFieldsB bound' fs = true
  | .nil, _, _, _, _ => rfl
  | .cons _ t _ fs, bound, bound', hsub, h => by
    simp only [closedFieldsB, Bool.and_eq_true] at h ⊢
    exact ⟨closedB_mono t bound bound' hsub h.1, closedFieldsB_mono fs bound bound' hsub h.2⟩
end

mutual
theorem substCycle_closed_id : ∀ (t : Ty) (bound : List String) (n : String) (S : Ty),
    closedB bound t = true → n ∉ bound → substCycle n S t = t
  | .cycle m, bound, n, S, h, hn => by
    simp only [closedB, decide_eq_true_eq] at h
    simp only [substCycle]
    rw [if_neg (fun hm : m = n => hn (hm ▸ h))]
  | .strct m fs, bound, n, S, h, hn => by
    simp only [closedB] at h
    simp only [substCycle]
    by_cases hm : m = n
    · rw [if_pos hm]
    · rw [if_neg hm]
      rw [substFields_closed_id fs (m :: bound) n S h
        (by simp; exact ⟨fun hh => hm hh.symm, hn⟩)]
  | .list t, bound, n, S, h, hn => by
    simp only [substCycle, substCycle_closed_id t bound n S h hn]
  | .set t, bound, n, S, h, hn => by
    simp only [substCycle, substCycle_closed_id t bound n S h hn]
  | .ref t, bound, n, S, h, hn => by
    simp only [substCycle, substCycle_closed_id t bound n S h hn]
  | .map k v, bound, n, S, h, hn => by
    simp only [closedB, Bool.and_eq_true] at h
    simp only [substCycle, substCycle_closed_id k bound n S h.1 hn,
      substCycle_closed_id v bound n S h.2 hn]
  | .union ts, bound, n, S, h, hn => by
    simp only [substCycle, substTyList_closed_id ts bound n S h hn]
  | .bool, _, _, _, _, _ => rfl
  | .number, _, _, _, _, _ => rfl
  | .str, _, _, _, _, _ => rfl
  | .blob, _, _, _, _, _ => rfl
  | .value, _, _, _, _, _ => rfl
  | .typ, _, _, _, _, _ => rfl

theorem substTyList_closed_id : ∀ (ts : TyList) (bound : List String) (n : String) (S : Ty),
    closedTyListB bound ts = true → n ∉ bound → substTyList n S ts = ts
  | .nil, _, _, _, _, _ => rfl
  | .cons t ts, bound, n, S, h, hn => by
    simp only [closedTyListB, Bool.and_eq_true] at h
    simp only [substTyList, substCycle_closed_id t bound n S h.1 hn,
      substTyList_closed_id ts bound n S h.2 hn]

theorem substFields_closed_id : ∀ (fs : Fields) (bound : List String) (n : String) (S : Ty),
    closedFieldsB bound fs = true → n ∉ bound → substFields n S fs = fs
  | .nil, _, _, _, _, _ => rfl
  | .cons m t o fs, bound, n, S, h, hn => by
    simp only [closedFieldsB, Bool.and_eq_true] at h
    simp only [substFields, substCycle_closed_id t bound n S h.1 hn,
      substFields_closed_id fs bound n S h.2 hn]
end

mutual
theorem msubst_nil : ∀ t : Ty, msubst [] t = t
  | .cycle m => rfl
  | .strct n fs => by
    simp only [msubst]
    rw [show removeKey n [] = [] from rfl, msubstFields_nil fs]
  | .list t => by simp only [msubst, msubst_nil t]
  | .set t => by simp only [msubst, msubst_nil t]
  | .ref t => by simp only [msubst, msubst_nil t]
  | .map k v => by simp only [msubst, msubst_nil k, msubst_nil v]
  | .union ts => by simp only [msubst, msubstTyList_nil ts]
  | .bool => rfl
  | .number => rfl
  | .str => rfl
  | .blob => rfl
  | .value => rfl
  | .typ => rfl

theorem msubstTyList_nil : ∀ ts : TyList, msubstTyList [] ts = ts
  | .nil => rfl
  | .cons t ts => by simp only [msubstTyList, msubst_nil t, msubstTyList_nil ts]

theorem msubstFields_nil : ∀ fs : Fields, msubstFields [] fs = fs
  | .nil => rfl
  | .cons n t o fs => by simp only [msubstFields, msubst_nil t, msubstFields_nil fs]
end

mutual
theorem msubst_closed : ∀ (t : Ty) (env : List (String × Ty)) (bound : List String),
    EnvClosed env → (∀ k ∈ envKeys env, k ∉ bound) →
    closedB (bound ++ envKeys env) t = true → closedB bound (msubst env t) = true
  | .cycle m, env, bound, hE, _, h => by
    simp only [closedB, decide_eq_true_eq, List.mem_append] at h
    simp only [msubst]
    rcases hl : lookupEnv m env with _ | s
    · have hm : m ∉ envKeys env := not_mem_keys_of_lookupEnv_none hl
      simp only [closedB, decide_eq_true_eq]
      rcases h with h | h
      · exact h
      · exact absurd h hm
    · exact closedB_mono s [] bound (by simp) (lookupEnv_closed hE hl)
  | .strct n fs, env, bound, hE, hd, h => by
    simp only [closedB] at h
    simp only [msubst, closedB]
    apply msubstFields_closed fs (removeKey n env) (n :: bound) (hE.removeKey n)
    · intro k hk
      obtain ⟨hk1, hk2⟩ := mem_envKeys_removeKey.mp hk
      simp only [List.mem_cons, not_or]
      exact ⟨hk2, hd k hk1⟩
    · apply closedFieldsB_mono fs (n :: (bound ++ envKeys env))
      · intro x hx
        rcases List.mem_cons.mp hx with rfl | hx
        · exact List.mem_cons_self _ _
        · rcases List.mem_append.mp hx with hx | hx
          · exact List.mem_cons_of_mem _ (List.mem_append.mpr (Or.inl hx))
          · by_cases hxn : x = n
            · exact hxn ▸ List.mem_cons_self _ _
            · exact List.mem_cons_of_mem _ (List.mem_append.mpr
                (Or.inr (mem_envKeys_removeKey.mpr ⟨hx, hxn⟩)))
      · exact h
  | .list t, env, bound, hE, hd, h => msubst_closed t env bound hE hd h
  | .set t, env, bound, hE, hd, h => msubst_closed t env bound hE hd h
  | .ref t, env, bound, hE, hd, h => msubst_closed t env bound hE hd h
  | .map k v, env, bound, hE, hd, h => by
    simp only [closedB, Bool.and_eq_true] at h
    simp only [msubst, closedB, Bool.and_eq_true]
    exact ⟨msubst_closed k env bound hE hd h.1, msubst_closed v env bound hE hd h.2⟩
  | .union ts, env, bound, hE, hd, h => msubstTyList_closed ts env bound hE hd h
  | .bool, _, _, _, _, _ => rfl
  | .number, _, _, _, _, _ => rfl
  | .str, _, _, _, _, _ => rfl
  | .blob, _, _, _, _, _ => rfl
  | .value, _, _, _, _, _ => rfl
  | .typ, _, _, _, _, _ => rfl

theorem msubstTyList_closed : ∀ (ts : TyList) (env : List (String × Ty)) (bound : List String),
    EnvClosed env → (∀ k ∈ envKeys env, k ∉ bound) →
    closedTyListB (bound ++ envKeys env) ts = true →
    closedTyListB bound (msubstTyList env ts) = true
  | .nil, _, _, _, _, _ => rfl
  | .cons t ts, env, bound, hE, hd, h => by
    simp only [closedTyListB, Bool.and_eq_true] at h
    simp only [msubstTyList, closedTyListB, Bool.and_eq_true]
    exact ⟨msubst_closed t env bound hE hd h.1, msubstTyList_closed ts env bound hE hd h.2⟩

theorem msubstFields_closed : ∀ (fs : Fields) (env : List (String × Ty)) (bound : List String),
    EnvClosed env → (∀ k ∈ envKeys env, k ∉ bound) →
    closedFieldsB (bound ++ envKeys env) fs = true →
    closedFieldsB bound (msubstFields env fs) = true
  | .nil, _, _, _, _, _ => rfl
  | .cons m t o fs, env, bound, hE, hd, h => by
    simp only [closedFieldsB, Bool.and_eq_true] at h
    simp only [msubstFields, closedFieldsB, Bool.and_eq_true]
    exact ⟨msubst_closed t env bound hE hd h.1, msubstFields_closed fs env bound hE hd h.2⟩
end

mutual
theorem substCycle_msubst : ∀ (t : Ty) (env : List (String × Ty)) (n : String) (S : Ty),
    EnvClosed env → closedB [] S = true →
    substCycle n S (msubst (removeKey n env) t) = msubst ((n, S) :: env) t
  | .cycle m, env, n, S, hE, hS => by
    by_cases hm : m = n
    · subst hm
      rw [show msubst (removeKey m env) (Ty.cycle m) =
          match lookupEnv m (removeKey m env) with
          | some s => s
          | none => Ty.cycle m from rfl]
      rw [lookupEnv_removeKey_self]
      show substCycle m S (Ty.cycle m) = msubst ((m, S) :: env) (Ty.cycle m)
      rw [show msubst ((m, S) :: env) (Ty.cycle m) =
          match lookupEnv m ((m, S) :: env) with
          | some s => s
          | none => Ty.cycle m from rfl]
      simp [lookupEnv, substCycle]
    · rw [show msubst (removeKey n env) (Ty.cycle m) =
          match lookupEnv m (removeKey n env) with
          | some s => s
          | none => Ty.cycle m from rfl]
      rw [lookupEnv_removeKey_ne hm]
      rw [show msubst ((n, S) :: env) (Ty.cycle m) =
          match lookupEnv m ((n, S) :: env) with
          | some s => s
          | none => Ty.cycle m from rfl]
      rw [show lookupEnv m ((n, S) :: env) = lookupEnv m env from by
        simp only [lookupEnv]; rw [if_neg (fun hh : n = m => hm hh.symm)]]
      rcases hl : lookupEnv m env with _ | s
      · simp only [substCycle]
        rw [if_neg hm]
      · exact substCycle_closed_id s [] n S (lookupEnv_closed hE hl) (by simp)
  | .strct m fs, env, n, S, hE, hS => by
    simp only [msubst]
    by_cases hm : m = n
    · subst hm
      rw [show substCycle m S (Ty.strct m (msubstFields (removeKey m (removeKey m env)) fs)) =
          Ty.strct m (msubstFields (removeKey m (removeKey m env)) fs) from by
        simp [substCycle]]
      rw [removeKey_removeKey_self, removeKey_cons_self]
    · simp only [substCycle]
      rw [if_neg hm, removeKey_cons_ne (fun hh : n = m => hm hh.symm), removeKey_comm]
      rw [substFields_msubst fs (removeKey m env) n S (hE.removeKey m) hS]
  | .list t, env, n, S, hE, hS => by
    simp only [msubst, substCycle, substCycle_msubst t env n S hE hS]
  | .set t, env, n, S, hE, hS => by
    simp only [msubst, substCycle, substCycle_msubst t env n S hE hS]
  | .ref t, env, n, S, hE, hS => by
    simp only [msubst, substCycle, substCycle_msubst t env n S hE hS]
  | .map k v, env, n, S, hE, hS => by
    simp only [msubst, substCycle, substCycle_msubst k env n S hE hS,
      substCycle_msubst v env n S hE hS]
  | .union ts, env, n, S, hE, hS => by
    simp only [msubst, substCycle, substTyList_msubst ts env n S hE hS]
  | .bool, _, _, _, _, _ => rfl
  | .number, _, _, _, _, _ => rfl
  | .str, _, _, _, _, _ => rfl
  | .blob, _, _, _, _, _ => rfl
  | .value, _, _, _, _, _ => rfl
  | .typ, _, _, _, _, _ => rfl

theorem substTyList_msubst : ∀ (ts : TyList) (env : List (String × Ty)) (n : String) (S : Ty),
    EnvClosed env → closedB [] S = true →
    substTyList n S (msubstTyList (removeKey n env) ts) = msubstTyList ((n, S) :: env) ts
  | .nil, _, _, _, _, _ => rfl
  | .cons t ts, env, n, S, hE, hS => by
    simp only [msubstTyList, substTyList, substCycle_msubst t env n S hE hS,
      substTyList_msubst ts env n S hE hS]

theorem substFields_msubst : ∀ (fs : Fields) (env : List (String × Ty)) (n : String) (S : Ty),
    EnvClosed env → closedB [] S = true →
    substFields n S (msubstFields (removeKey n env) fs) = msubstFields ((n, S) :: env) fs
  | .nil, _, _, _, _, _ => rfl
  | .cons m t o fs, env, n, S, hE, hS => by
    simp only [msubstFields, substFields, substCycle_msubst t env n S hE hS,
      substFields_msubst fs env n S hE hS]
end

/-- Unfolding the closure of a struct is the closure of its fields under
the extended environment: the key step connecting the judge's unfolding
with the reachable-set construction. -/
theorem structUnfold_msubst (n : String) (fs : Fields) (env : List (String × Ty))
    (hE : EnvClosed env) (hS : closedB [] (msubst env (Ty.strct n fs)) = true) :
    structUnfold n (msubstFields (removeKey n env) fs) =
      msubstFields ((n, msubst env (Ty.strct n fs)) :: env) fs := by
  unfold structUnfold
  rw [show Ty.strct n (msubstFields (removeKey n env) fs) = msubst env (Ty.strct n fs) from rfl]
  exact substFields_msubst fs env n (msubst env (Ty.strct n fs)) hE hS

/-- One-step closure of a reach list at an element: the types the judge
can move to from this element in one step are also in the list. -/
def ShapeClosed (x : Ty) (L : List Ty) : Prop :=
  match x with
  | .list u => u ∈ L
  | .set u => u ∈ L
  | .ref u => u ∈ L
  | .map k v => k ∈ L ∧ v ∈ L
  | .union us => ∀ a ∈ us.toList, a ∈ L
  | .strct n fs => ∀ p ∈ (structUnfold n fs).toList, p.2.1 ∈ L
  | _ => True

/-- Every environment image is a struct whose unfolded field types lie in
the ambient reach list. -/
def EnvGood (env : List (String × Ty)) (L : List Ty) : Prop :=
  ∀ p ∈ env, ∃ n fs, p.2 = Ty.strct n fs ∧ ∀ q ∈ (structUnfold n fs).toList, q.2.1 ∈ L

theorem msubst_mem_RTy (env : List (String × Ty)) (t : Ty) : msubst env t ∈ RTy env t := by
  cases t <;> simp [RTy]

theorem mem_msubstTyList_RTyList {env : List (String × Ty)} :
    ∀ ts : TyList, ∀ a ∈ (msubstTyList env ts).toList, a ∈ RTyList env ts
  | .cons t ts, a, ha => by
    rcases List.mem_cons.mp (by simpa [msubstTyList, TyList.toList] using ha) with rfl | ha
    · exact List.mem_append.mpr (Or.inl (msubst_mem_RTy env t))
    · exact List.mem_append.mpr (Or.inr (mem_msubstTyList_RTyList ts a ha))

theorem mem_msubstFields_RFields {env : List (String × Ty)} :
    ∀ fs : Fields, ∀ p ∈ (msubstFields env fs).toList, p.2.1 ∈ RFields env fs
  | .cons m t o fs, p, hp => by
    rcases List.mem_cons.mp (by simpa [msubstFields, Fields.toList] using hp) with rfl | hp
    · exact List.mem_append.mpr (Or.inl (msubst_mem_RTy env t))
    · exact List.mem_append.mpr (Or.inr (mem_msubstFields_RFields fs p hp))

theorem lookupEnv_mem_val {m : String} {s : Ty} : ∀ {env : List (String × Ty)},
    lookupEnv m env = some s → ∃ p ∈ env, p.2 = s := by
  intro env
  induction env with
  | nil => intro h; exact absurd h (by simp [lookupEnv])
  | cons p env ih =>
    intro h
    simp only [lookupEnv] at h
    split at h
    · cases h
      exact ⟨p, by simp⟩
    · obtain ⟨q, hq, hv⟩ := ih h
      exact ⟨q, List.mem_cons_of_mem p hq, hv⟩

/-- Closedness of the struct head produced by substitution. -/
theorem msubst_strct_closed {env : List (String × Ty)} {n : String} {fs : Fields}
    (hE : EnvClosed env) (h : closedB (envKeys env) (Ty.strct n fs) = true) :
    closedB [] (msubst env (Ty.strct n fs)) = true :=
  msubst_closed (Ty.strct n fs) env [] hE (by simp) h

mutual
theorem RTy_closed : ∀ (t : Ty) (env : List (String × Ty)) (L : List Ty),
    EnvClosed env → EnvGood env L → closedB (envKeys env) t = true →
    (∀ y ∈ RTy env t, y ∈ L) → ∀ x ∈ RTy env t, ShapeClosed x L
  | .bool, env, L, _, _, _, _, x, hx => by
    simp [RTy, msubst] at hx
    simp [hx, ShapeClosed]
  | .number, env, L, _, _, _, _, x, hx => by
    simp [RTy, msubst] at hx
    simp [hx, ShapeClosed]
  | .str, env, L, _, _, _, _, x, hx => by
    simp [RTy, msubst] at hx
    simp [hx, ShapeClosed]
  | .blob, env, L, _, _, _, _, x, hx => by
    simp [RTy, msubst] at hx
    simp [hx, ShapeClosed]
  | .value, env, L, _, _, _, _, x, hx => by
    simp [RTy, msubst] at hx
    simp [hx, ShapeClosed]
  | .typ, env, L, _, _, _, _, x, hx => by
    simp [RTy, msubst] at hx
    simp [hx, ShapeClosed]
  | .cycle m, env, L, hE, hG, hc, _, x, hx => by
    simp only [closedB, decide_eq_true_eq] at hc
    simp only [RTy, List.mem_singleton] at hx
    subst hx
    obtain ⟨s, hs⟩ := lookupEnv_some_of_mem_keys hc
    rw [show msubst env (Ty.cycle m) =
        match lookupEnv m env with
        | some s => s
        | none => Ty.cycle m from rfl, hs]
    obtain ⟨p, hp, hv⟩ := lookupEnv_mem_val hs
    obtain ⟨n0, fs0, hshape, hflds⟩ := hG p hp
    rw [hv] at hshape
    subst hshape
    exact hflds
  | .list u, env, L, hE, hG, hc, hsub, x, hx => by
    simp only [RTy, List.mem_cons] at hx
    rcases hx with rfl | hx
    · rw [show msubst env (Ty.list u) = Ty.list (msubst env u) from rfl]
      simp only [ShapeClosed]
      exact hsub _ (List.mem_cons_of_mem _ (msubst_mem_RTy env u))
    · exact RTy_closed u env L hE hG hc
        (fun y hy => hsub y (List.mem_cons_of_mem _ hy)) x hx
  | .set u, env, L, hE, hG, hc, hsub, x, hx => by
    simp only [RTy, List.mem_cons] at hx
    rcases hx with rfl | hx
    · rw [show msubst env (Ty.set u) = Ty.set (msubst env u) from rfl]
      simp only [ShapeClosed]
      exact hsub _ (List.mem_cons_of_mem _ (msubst_mem_RTy env u))
    · exact RTy_closed u env L hE hG hc
        (fun y hy => hsub y (List.mem_cons_of_mem _ hy)) x hx
  | .ref u, env, L, hE, hG, hc, hsub, x, hx => by
    simp only [RTy, List.mem_cons] at hx
    rcases hx with rfl | hx
    · rw [show msubst env (Ty.ref u) = Ty.ref (msubst env u) from rfl]
      simp only [ShapeClosed]
      exact hsub _ (List.mem_cons_of_mem _ (msubst_mem_RTy env u))
    · exact RTy_closed u env L hE hG hc
        (fun y hy => hsub y (List.mem_cons_of_mem _ hy)) x hx
  | .map k v, env, L, hE, hG, hc, hsub, x, hx => by
    simp only [closedB, Bool.and_eq_true] at hc
    simp only [RTy, List.mem_cons, List.mem_append] at hx
    rcases hx with rfl | hx | hx
    · rw [show msubst env (Ty.map k v) = Ty.map (msubst env k) (msubst env v) from rfl]
      simp only [ShapeClosed]
      constructor
      · exact hsub _ (List.mem_cons_of_mem _ (List.mem_append.mpr (Or.inl (msubst_mem_RTy env k))))
      · exact hsub _ (List.mem_cons_of_mem _ (List.mem_append.mpr (Or.inr (msubst_mem_RTy env v))))
    · exact RTy_closed k env L hE hG hc.1
        (fun y hy => hsub y (List.mem_cons_of_mem _ (List.mem_append.mpr (Or.inl hy)))) x hx
    · exact RTy_closed v env L hE hG hc.2
        (fun y hy => hsub y (List.mem_cons_of_mem _ (List.mem_append.mpr (Or.inr hy)))) x hx
  | .union ts, env, L, hE, hG, hc, hsub, x, hx => by
    simp only [RTy, List.mem_cons] at hx
    rcases hx with rfl | hx
    · rw [show msubst env (Ty.union ts) = Ty.union (msubstTyList env ts) from rfl]
      simp only [ShapeClosed]
      intro a ha
      exact hsub a (List.mem_cons_of_mem _ (mem_msubstTyList_RTyList ts a ha))
    · exact RTyList_closed ts env L hE hG hc
        (fun y hy => hsub y (List.mem_cons_of_mem _ hy)) x hx
  | .strct n fs, env, L, hE, hG, hc, hsub, x, hx => by
    have hSc : closedB [] (msubst env (Ty.strct n fs)) = true := msubst_strct_closed hE hc
    have hUn : structUnfold n (msubstFields (removeKey n env) fs) =
        msubstFields ((n, msubst env (Ty.strct n fs)) :: env) fs :=
      structUnfold_msubst n fs env hE hSc
    have hfldsL : ∀ q ∈ (structUnfold n (msubstFields (removeKey n env) fs)).toList,
        q.2.1 ∈ L := by
      rw [hUn]
      intro q hq
      apply hsub
      simp only [RTy]
      exact List.mem_cons_of_mem _ (mem_msubstFields_RFields fs q hq)
    simp only [RTy, List.mem_cons] at hx
    rcases hx with rfl | hx
    · rw [show msubst env (Ty.strct n fs) =
          Ty.strct n (msubstFields (removeKey n env) fs) from rfl]
      simp only [ShapeClosed]
      exact hfldsL
    · apply RFields_closed fs ((n, msubst env (Ty.strct n fs)) :: env) L
        (hE.cons hSc) ?_ ?_ (fun y hy => hsub y (List.mem_cons_of_mem _ hy)) x hx
      · intro p hp
        rcases List.mem_cons.mp hp with rfl | hp
        · exact ⟨n, msubstFields (removeKey n env) fs, rfl, hfldsL⟩
        · exact hG p hp
      · simpa only [closedB] using hc

theorem RTyList_closed : ∀ (ts : TyList) (env : List (String × Ty)) (L : List Ty),
    EnvClosed env → EnvGood env L → closedTyListB (envKeys env) ts = true →
    (∀ y ∈ RTyList env ts, y ∈ L) → ∀ x ∈ RTyList env ts, ShapeClosed x L
  | .nil, env, L, _, _, _, _, x, hx => by simp [RTyList] at hx
  | .cons t ts, env, L, hE, hG, hc, hsub, x, hx => by
    simp only [closedTyListB, Bool.and_eq_true] at hc
    rcases List.mem_append.mp (by simpa [RTyList] using hx) with hx | hx
    · exact RTy_closed t env L hE hG hc.1
        (fun y hy => hsub y (by simp [RTyList]; exact Or.inl hy)) x hx
    · exact RTyList_closed ts env L hE hG hc.2
        (fun y hy => hsub y (by simp [RTyList]; exact Or.inr hy)) x hx

theorem RFields_closed : ∀ (fs : Fields) (env : List (String × Ty)) (L : List Ty),
    EnvClosed env → EnvGood env L → closedFieldsB (envKeys env) fs = true →
    (∀ y ∈ RFields env fs, y ∈ L) → ∀ x ∈ RFields env fs, ShapeClosed x L
  | .nil, env, L, _, _, _, _, x, hx => by simp [RFields] at hx
  | .cons m t o fs, env, L, hE, hG, hc, hsub, x, hx => by
    simp only [closedFieldsB, Bool.and_eq_true] at hc
    rcases List.mem_append.mp (by simpa [RFields] using hx) with hx | hx
    · exact RTy_closed t env L hE hG hc.1
        (fun y hy => hsub y (by simp [RFields]; exact Or.inl hy)) x hx
    · exact RFields_closed fs env L hE hG hc.2
        (fun y hy => hsub y (by simp [RFields]; exact Or.inr hy)) x hx
end

/-- The reach list of a closed type is closed under the judge's steps. -/
theorem RTy_good (t : Ty) (h : Closed t) :
    ∀ x ∈ RTy [] t, ShapeClosed x (RTy [] t) :=
  RTy_closed t [] (RTy [] t) (fun p hp => absurd hp (by simp))
    (fun p hp => absurd hp (by simp)) h (fun y hy => hy)

/-- A closed type is the head of its own reach list. -/
theorem self_mem_RTy (t : Ty) : t ∈ RTy [] t := by
  have := msubst_mem_RTy [] t
  rwa [msubst_nil] at this

theorem oand_isSome {a b : Option Bool} (ha : a.isSome) (hb : b.isSome) :
    (oand a b).isSome := by
  cases a with
  | none => simp at ha
  | some x =>
    cases b with
    | none => simp at hb
    | some y => cases x <;> cases y <;> rfl

theorem oor_isSome {a b : Option Bool} (ha : a.isSome) (hb : b.isSome) :
    (oor a b).isSome := by
  cases a with
  | none => simp at ha
  | some x =>
    cases b with
    | none => simp at hb
    | some y => cases x <;> cases y <;> rfl

theorem allSubF_isSome {f : Ty → Option Bool} :
    ∀ ts : TyList, (∀ t ∈ ts.toList, (f t).isSome) → (allSubF f ts).isSome
  | .nil, _ => rfl
  | .cons t ts, h =>
    oand_isSome (h t (by simp [TyList.toList]))
      (allSubF_isSome ts (fun u hu => h u (by simp [TyList.toList, hu])))

theorem anySubF_isSome {f : Ty → Option Bool} :
    ∀ ts : TyList, (∀ t ∈ ts.toList, (f t).isSome) → (anySubF f ts).isSome
  | .nil, _ => rfl
  | .cons t ts, h =>
    oor_isSome (h t (by simp [TyList.toList]))
      (anySubF_isSome ts (fun u hu => h u (by simp [TyList.toList, hu])))

theorem seekField_subset (rn : String) : ∀ (cfs : Fields) (q : String × Ty × Bool),
    q ∈ (seekField rn cfs).toList → q ∈ cfs.toList
  | .nil, q, hq => hq
  | .cons cn ct co cs, q, hq => by
    simp only [seekField] at hq
    split at hq
    · exact List.mem_cons_of_mem _ (seekField_subset rn cs q hq)
    · exact hq

theorem fieldsSubF_isSome {f : Ty → Ty → Option Bool} :
    ∀ (rfs cfs : Fields),
      (∀ p ∈ rfs.toList, ∀ q ∈ cfs.toList, (f p.2.1 q.2.1).isSome) →
      (fieldsSubF f rfs cfs).isSome
  | .nil, _, _ => rfl
  | .cons rn rt ro rs, cfs, h => by
    simp only [fieldsSubF]
    split
    · split
      · exact fieldsSubF_isSome rs Fields.nil
          (fun p hp q hq => by simp [Fields.toList] at hq)
      · rfl
    · rename_i cn ct co cs heq
      have hsub : ∀ q ∈ (Fields.cons cn ct co cs).toList, q ∈ cfs.toList := by
        intro q hq
        exact seekField_subset rn cfs q (by rw [heq]; exact hq)
      split
      · split
        · rfl
        · apply oand_isSome
          · exact h (rn, rt, ro) (by simp [Fields.toList])
              (cn, ct, co) (hsub _ (by simp [Fields.toList]))
          · exact fieldsSubF_isSome rs cs (fun p hp q hq =>
              h p (by simp [Fields.toList, hp]) q (hsub q (by simp [Fields.toList, hq])))
      · split
        · exact fieldsSubF_isSome rs (Fields.cons cn ct co cs) (fun p hp q hq =>
            h p (by simp [Fields.toList, hp]) q (hsub q hq))
        · rfl

theorem memo_length_le {memo : List (Ty × Ty)} {L1 L2 : List Ty}
    (hnd : memo.Nodup) (hmem : ∀ p ∈ memo, p.1 ∈ L1 ∧ p.2 ∈ L2) :
    memo.length ≤ L1.length * L2.length := by
  have h1 : memo.toFinset.card = memo.length := List.toFinset_card_of_nodup hnd
  have h2 : memo.toFinset ⊆ L1.toFinset ×ˢ L2.toFinset := by
    intro p hp
    rw [List.mem_toFinset] at hp
    obtain ⟨hp1, hp2⟩ := hmem p hp
    exact Finset.mem_product.mpr ⟨List.mem_toFinset.mpr hp1, List.mem_toFinset.mpr hp2⟩
  calc memo.length = memo.toFinset.card := h1.symm
    _ ≤ (L1.toFinset ×ˢ L2.toFinset).card := Finset.card_le_card h2
    _ = L1.toFinset.card * L2.toFinset.card := Finset.card_product _ _
    _ ≤ L1.length * L2.length :=
        Nat.mul_le_mul (List.toFinset_card_le L1) (List.toFinset_card_le L2)

theorem tySize_le_maxSizeOf {x : Ty} : ∀ {L : List Ty}, x ∈ L → tySize x ≤ maxSizeOf L := by
  intro L
  induction L with
  | nil => intro h; simp at h
  | cons a l ih =>
    intro h
    rcases List.mem_cons.mp h with rfl | h
    · simp [maxSizeOf, List.foldr]
    · simp only [maxSizeOf, List.foldr]
      exact le_max_of_le_right (ih h)

/-- Fuel sufficiency: under the reach-list invariants, the measure
(number of available memo slots times a bound on size-decreasing chains,
plus the current sizes) bounds the recursion, so any fuel above it yields
a definite answer. -/
theorem isSubtypeMemoF_sufficient :
    ∀ (f : Nat) (L1 L2 : List Ty) (memo : List (Ty × Ty)) (r c : Ty),
      (∀ x ∈ L1, ShapeClosed x L1) → (∀ x ∈ L2, ShapeClosed x L2) →
      r ∈ L1 → c ∈ L2 → memo.Nodup → (∀ p ∈ memo, p.1 ∈ L1 ∧ p.2 ∈ L2) →
      (L1.length * L2.length + 1 - memo.length) * (maxSizeOf L1 + maxSizeOf L2 + 1) +
        tySize r + tySize c < f →
      (isSubtypeMemoF f memo r c).isSome := by
  intro f
  induction f with
  | zero => intro L1 L2 memo r c _ _ _ _ _ _ hm; omega
  | succ k ih =>
    intro L1 L2 memo r c hG1 hG2 hr hc hnd hmm hm
    simp only [isSubtypeMemoF]
    unfold isSubStep
    split
    · rfl
    · split
      · rfl
      · cases c <;> cases r <;> dsimp only <;>
          first
            | rfl
            | (apply allSubF_isSome
               intro t ht
               refine ih L1 L2 memo _ t hG1 hG2 hr ?_ hnd hmm ?_
               · have h2 := hG2 _ hc
                 simp only [ShapeClosed] at h2
                 exact h2 t ht
               · have h1 := tySize_mem_le _ t ht
                 simp only [tySize] at hm ⊢
                 omega)
            | (apply anySubF_isSome
               intro t ht
               refine ih L1 L2 memo t _ hG1 hG2 ?_ hc hnd hmm ?_
               · have h2 := hG1 _ hr
                 simp only [ShapeClosed] at h2
                 exact h2 t ht
               · have h1 := tySize_mem_le _ t ht
                 simp only [tySize] at hm ⊢
                 omega)
            | (refine ih L1 L2 memo _ _ hG1 hG2 ?_ ?_ hnd hmm ?_
               · have h2 := hG1 _ hr
                 simp only [ShapeClosed] at h2
                 exact h2
               · have h2 := hG2 _ hc
                 simp only [ShapeClosed] at h2
                 exact h2
               · simp only [tySize] at hm ⊢
                 omega)
            | (apply oand_isSome
               · refine ih L1 L2 memo _ _ hG1 hG2 ?_ ?_ hnd hmm ?_
                 · have h2 := hG1 _ hr
                   simp only [ShapeClosed] at h2
                   exact h2.1
                 · have h2 := hG2 _ hc
                   simp only [ShapeClosed] at h2
                   exact h2.1
                 · simp only [tySize] at hm ⊢
                   omega
               · refine ih L1 L2 memo _ _ hG1 hG2 ?_ ?_ hnd hmm ?_
                 · have h2 := hG1 _ hr
                   simp only [ShapeClosed] at h2
                   exact h2.2
                 · have h2 := hG2 _ hc
                   simp only [ShapeClosed] at h2
                   exact h2.2
                 · simp only [tySize] at hm ⊢
                   omega)
            | skip
        all_goals
          split
          · rfl
          · split
            · rfl
            · rename_i hnm hmem2
              apply fieldsSubF_isSome
              intro p hp q hq
              have hG1r := hG1 _ hr
              simp only [ShapeClosed] at hG1r
              have hG2c := hG2 _ hc
              simp only [ShapeClosed] at hG2c
              have hpL := hG1r p hp
              have hqL := hG2c q hq
              refine ih L1 L2 _ _ _ hG1 hG2 hpL hqL
                (List.nodup_cons.mpr ⟨hmem2, hnd⟩) (fun pr hpr => ?_) ?_
              · rcases List.mem_cons.mp hpr with rfl | hpr
                · exact ⟨hr, hc⟩
                · exact hmm pr hpr
              · have hlen : memo.length ≤ L1.length * L2.length := memo_length_le hnd hmm
                have hsa : tySize p.2.1 ≤ maxSizeOf L1 := tySize_le_maxSizeOf hpL
                have hsb : tySize q.2.1 ≤ maxSizeOf L2 := tySize_le_maxSizeOf hqL
                have heq1 : L1.length * L2.length + 1 - memo.length =
                    (L1.length * L2.length - memo.length) + 1 := by omega
                rw [heq1, Nat.succ_mul] at hm
                have heq2 : L1.length * L2.length + 1 - (memo.length + 1) =
                    L1.length * L2.length - memo.length := by omega
                simp only [List.length_cons]
                rw [heq2]
                omega

/-- On closed (finalized) types the computed fuel bound suffices: the
judge returns a definite answer. -/
theorem fuelBound_sufficient (t1 t2 : Ty) (h1 : Closed t1) (h2 : Closed t2) :
    (isSubtypeMemoF (fuelBound t1 t2) [] t1 t2).isSome := by
  apply isSubtypeMemoF_sufficient (fuelBound t1 t2) (RTy [] t1) (RTy [] t2) [] t1 t2
    (RTy_good t1 h1) (RTy_good t2 h2) (self_mem_RTy t1) (self_mem_RTy t2)
    List.nodup_nil (by simp)
  simp only [fuelBound, List.length_nil, Nat.sub_zero]
  omega

/-- The public judge agrees with any definite fuel answer on closed types. -/
theorem isSubtype_eq_of_memoF {r c : Ty} {b : Bool} {f : Nat}
    (h1 : Closed r) (h2 : Closed c) (h : isSubtypeMemoF f [] r c = some b) :
    isSubtype r c = b := by
  obtain ⟨b', hb'⟩ := Option.isSome_iff_exists.mp (fuelBound_sufficient r c h1 h2)
  have hF1 := isSubtypeMemoF_mono h (Nat.le_max_left f (fuelBound r c))
  have hF2 := isSubtypeMemoF_mono hb' (Nat.le_max_right f (fuelBound r c))
  rw [hF1] at hF2
  cases hF2
  unfold isSubtype
  rw [hb']
  rfl

/-- On closed types the public judge is realized by its fuel bound. -/
theorem isSubtype_memoF_eq {r c : Ty} (h1 : Closed r) (h2 : Closed c) :
    isSubtypeMemoF (fuelBound r c) [] r c = some (isSubtype r c) := by
  obtain ⟨b, hb⟩ := Option.isSome_iff_exists.mp (fuelBound_sufficient r c h1 h2)
  rw [hb]
  unfold isSubtype
  rw [hb]
  rfl

/-- C5: isSubtype(required, concrete) terminates on every pair of
finalized (possibly cyclic) type graphs: every struct-vs-struct comparison
either returns via the memo of pairs under comparison or inserts its pair
before recursing, so the recursion depth is bounded by the finite product
of reachable struct pairs; concretely, the fuel bound computed from the
product of the reach lists always yields a definite answer on closed
types. -/
theorem claim_C5_termination (t1 t2 : Ty) (h1 : Closed t1) (h2 : Closed t2) :
    (isSubtypeMemoF (fuelBound t1 t2) [] t1 t2).isSome :=
  fuelBound_sufficient t1 t2 h1 h2

/-- Witness for C5 on a genuinely cyclic pair of struct types. -/
theorem claim_C5_termination_witness :
    (isSubtypeMemoF
      (fuelBound
        (MakeStructType "S" [("x", MakeCycleType "S", false), ("y", NumberType, false)])
        (MakeStructType "S" [("x", MakeUnionType (TyList.cons (MakeCycleType "S")
          (TyList.cons NumberType TyList.nil)), false), ("y", NumberType, false)]))
      []
      (MakeStructType "S" [("x", MakeCycleType "S", false), ("y", NumberType, false)])
      (MakeStructType "S" [("x", MakeUnionType (TyList.cons (MakeCycleType "S")
        (TyList.cons NumberType TyList.nil)), false), ("y", NumberType, false)])).isSome :=
  claim_C5_termination _ _ (by decide) (by decide)

theorem closedTyListB_mem : ∀ (ts : TyList) (bound : List String),
    closedTyListB bound ts = true → ∀ x ∈ ts.toList, closedB bound x = true
  | .nil, bound, _, x, hx => by simp [TyList.toList] at hx
  | .cons t ts, bound, h, x, hx => by
    simp only [closedTyListB, Bool.and_eq_true] at h
    rcases List.mem_cons.mp hx with rfl | hx
    · exact h.1
    · exact closedTyListB_mem ts bound h.2 x hx

theorem closedTyListB_ofList {bound : List String} :
    ∀ {l : List Ty}, (∀ x ∈ l, closedB bound x = true) →
      closedTyListB bound (TyList.ofList l) = true := by
  intro l
  induction l with
  | nil => intro _; rfl
  | cons t l ih =>
    intro h
    simp only [TyList.ofList, closedTyListB, Bool.and_eq_true]
    exact ⟨h t (by simp), ih (fun x hx => h x (by simp [hx]))⟩

mutual
theorem closed_flattenOne : ∀ (t : Ty) (bound : List String),
    closedB bound t = true → ∀ x ∈ flattenOne t, closedB bound x = true
  | .union ts, bound, h, x, hx => closed_flattenList ts bound h x hx
  | .bool, bound, h, x, hx => by simp [flattenOne] at hx; simp [hx, closedB]
  | .number, bound, h, x, hx => by simp [flattenOne] at hx; simp [hx, closedB]
  | .str, bound, h, x, hx => by simp [flattenOne] at hx; simp [hx, closedB]
  | .blob, bound, h, x, hx => by simp [flattenOne] at hx; simp [hx, closedB]
  | .value, bound, h, x, hx => by simp [flattenOne] at hx; simp [hx, closedB]
  | .typ, bound, h, x, hx => by simp [flattenOne] at hx; simp [hx, closedB]
  | .list t, bound, h, x, hx => by simp [flattenOne] at hx; subst hx; exact h
  | .set t, bound, h, x, hx => by simp [flattenOne] at hx; subst hx; exact h
  | .ref t, bound, h, x, hx => by simp [flattenOne] at hx; subst hx; exact h
  | .map k v, bound, h, x, hx => by simp [flattenOne] at hx; subst hx; exact h
  | .strct n fs, bound, h, x, hx => by simp [flattenOne] at hx; subst hx; exact h
  | .cycle n, bound, h, x, hx => by simp [flattenOne] at hx; subst hx; exact h

theorem closed_flattenList : ∀ (ts : TyList) (bound : List String),
    closedTyListB bound ts = true → ∀ x ∈ flattenList ts, closedB bound x = true
  | .nil, bound, h, x, hx => by simp [flattenList] at hx
  | .cons t ts, bound, h, x, hx => by
    simp only [closedTyListB, Bool.and_eq_true] at h
    rcases List.mem_append.mp (by simpa [flattenList] using hx) with hx | hx
    · exact closed_flattenOne t bound h.1 x hx
    · exact closed_flattenList ts bound h.2 x hx
end

/-- The builder's unions preserve closedness. -/
theorem makeUnionType_closed {ts : TyList} {bound : List String}
    (h : closedTyListB bound ts = true) : closedB bound (MakeUnionType ts) = true := by
  rw [makeUnionType_eq_match]
  have harm : ∀ x ∈ armsCanon (flattenList ts), closedB bound x = true := by
    intro x hx
    exact closed_flattenList ts bound h x (mem_armsCanon.mp hx)
  rcases hL : armsCanon (flattenList ts) with _ | ⟨a, _ | ⟨b, l⟩⟩
  · rfl
  · exact harm a (by rw [hL]; simp)
  · show closedTyListB bound (TyList.ofList (a :: b :: l)) = true
    apply closedTyListB_ofList
    intro x hx
    exact harm x (by rw [hL]; exact hx)

theorem closedFieldsB_ofList {bound : List String} :
    ∀ {l : List StructField}, (∀ p ∈ l, closedB bound p.2.1 = true) →
      closedFieldsB bound (Fields.ofList l) = true := by
  intro l
  induction l with
  | nil => intro _; rfl
  | cons p l ih =>
    intro h
    obtain ⟨n, t, o⟩ := p
    simp only [Fields.ofList, closedFieldsB, Bool.and_eq_true]
    exact ⟨h (n, t, o) (by simp), ih (fun q hq => h q (by simp [hq]))⟩

/-- The builder's structs preserve closedness of their field types. -/
theorem makeStructType_closed {name : String} {l : List StructField} {bound : List String}
    (h : ∀ p ∈ l, closedB bound p.2.1 = true) :
    closedB bound (MakeStructType name l) = true := by
  unfold MakeStructType
  simp only [closedB]
  apply closedFieldsB_ofList
  intro p hp
  have hpl : p ∈ l := (List.perm_insertionSort fieldle l).mem_iff.mp hp
  exact closedB_mono p.2.1 bound (name :: bound) (fun m hm => List.mem_cons_of_mem _ hm)
    (h p hpl)

mutual
/-- The type witness of every value is a finalized (closed) type. -/
theorem typeOf_closed : ∀ v : Value, closedB [] (typeOf v) = true
  | .bool _ => rfl
  | .number _ => rfl
  | .str _ => rfl
  | .blob _ => rfl
  | .typ _ => rfl
  | .ref v => typeOf_closed v
  | .list vs => makeUnionType_closed (typeOfList_closed vs)
  | .set vs => makeUnionType_closed (typeOfList_closed vs)
  | .map es => by
    simp only [typeOf, closedB, Bool.and_eq_true]
    exact ⟨makeUnionType_closed (typeOfKeys_closed es),
      makeUnionType_closed (typeOfVals_closed es)⟩
  | .strct n fs => makeStructType_closed (typeOfFields_closed fs)

theorem typeOfList_closed : ∀ vs : ValueList, closedTyListB [] (typeOfList vs) = true
  | .nil => rfl
  | .cons v vs => by
    simp only [typeOfList, closedTyListB, Bool.and_eq_true]
    exact ⟨typeOf_closed v, typeOfList_closed vs⟩

theorem typeOfKeys_closed : ∀ es : ValueEntries, closedTyListB [] (typeOfKeys es) = true
  | .nil => rfl
  | .cons k v es => by
    simp only [typeOfKeys, closedTyListB, Bool.and_eq_true]
    exact ⟨typeOf_closed k, typeOfKeys_closed es⟩

theorem typeOfVals_closed : ∀ es : ValueEntries, closedTyListB [] (typeOfVals es) = true
  | .nil => rfl
  | .cons k v es => by
    simp only [typeOfVals, closedTyListB, Bool.and_eq_true]
    exact ⟨typeOf_closed v, typeOfVals_closed es⟩

theorem typeOfFields_closed : ∀ fs : ValueFields,
    ∀ p ∈ typeOfFields fs, closedB [] p.2.1 = true
  | .nil => by intro p hp; simp [typeOfFields] at hp
  | .cons n v fs => by
    intro p hp
    rcases List.mem_cons.mp (by simpa [typeOfFields] using hp) with rfl | hp
    · exact typeOf_closed v
    · exact typeOfFields_closed fs p hp
end

/-- C9: isSubtype is a total function that returns a boolean and never
fails (on finalized types, witnessed by the judge returning a definite
answer at the fuel bound), and assertSubtype(t, value) lifts the value to
its type witness, calls isSubtype on it, succeeds when the result is true,
and fails abort-style exactly when the result is false. -/
theorem claim_C9_totality_and_assert :
    (∀ (t : Ty) (v : Value), Closed t →
      (isSubtypeMemoF (fuelBound t (typeOf v)) [] t (typeOf v)).isSome) ∧
    (∀ (t : Ty) (v : Value), isSubtype t (typeOf v) = true →
      assertSubtype t v = Except.ok ()) ∧
    (∀ (t : Ty) (v : Value), isSubtype t (typeOf v) = false →
      assertSubtype t v = Except.error "invalid type for value") := by
  refine ⟨fun t v ht => fuelBound_sufficient t (typeOf v) ht (typeOf_closed v),
    fun t v h => ?_, fun t v h => ?_⟩
  · simp [assertSubtype, h]
  · simp [assertSubtype, h]

/-- Witness for C9 at a concrete judged pair. -/
theorem claim_C9_totality_and_assert_witness :
    (isSubtypeMemoF (fuelBound BoolType (typeOf (Value.bool true))) []
      BoolType (typeOf (Value.bool true))).isSome ∧
    assertSubtype BoolType (Value.bool true) = Except.ok () ∧
    assertSubtype NumberType (Value.bool true) = Except.error "invalid type for value" :=
  ⟨claim_C9_totality_and_assert.1 BoolType (Value.bool true) (by decide),
   claim_C9_totality_and_assert.2.1 BoolType (Value.bool true) (by decide),
   claim_C9_totality_and_assert.2.2 NumberType (Value.bool true) (by decide)⟩

theorem isSubtypeMemoF_refl (f : Nat) (memo : List (Ty × Ty)) (t : Ty) :
    isSubtypeMemoF (f + 1) memo t t = some true := by
  simp [isSubtypeMemoF, isSubStep]

theorem isSubtypeMemoF_value (f : Nat) (memo : List (Ty × Ty)) (c : Ty) :
    isSubtypeMemoF (f + 1) memo Ty.value c = some true := by
  unfold isSubtypeMemoF isSubStep
  split
  · rfl
  · rw [if_pos rfl]

theorem conv_unique {f f' : Nat} {memo : List (Ty × Ty)} {r c : Ty} {b b' : Bool}
    (h : isSubtypeMemoF f memo r c = some b) (h' : isSubtypeMemoF f' memo r c = some b') :
    b = b' := by
  have h1 := isSubtypeMemoF_mono h (Nat.le_max_left f f')
  have h2 := isSubtypeMemoF_mono h' (Nat.le_max_right f f')
  rw [h1] at h2
  exact (Option.some.injEq _ _ ▸ h2).symm ▸ rfl

theorem oand_true_iff : ∀ x y : Option Bool,
    oand x y = some true ↔ (x = some true ∧ y = some true) := by decide

theorem oand_false_iff : ∀ x y : Option Bool,
    oand x y = some false ↔ (x = some false ∨ y = some false) := by decide

theorem oor_true_iff : ∀ x y : Option Bool,
    oor x y = some true ↔ (x = some true ∨ y = some true) := by decide

theorem oor_false_iff : ∀ x y : Option Bool,
    oor x y = some false ↔ (x = some false ∧ y = some false) := by decide

theorem allSubF_true_iff {f : Ty → Option Bool} :
    ∀ ts : TyList, allSubF f ts = some true ↔ ∀ t ∈ ts.toList, f t = some true
  | .nil => by simp [allSubF, TyList.toList]
  | .cons t ts => by
    simp only [allSubF, oand_true_iff, TyList.toList, List.mem_cons,
      allSubF_true_iff ts]
    constructor
    · rintro ⟨h1, h2⟩ u (rfl | hu)
      · exact h1
      · exact h2 u hu
    · intro h
      exact ⟨h t (Or.inl rfl), fun u hu => h u (Or.inr hu)⟩

theorem allSubF_false_iff {f : Ty → Option Bool} :
    ∀ ts : TyList, allSubF f ts = some false ↔ ∃ t ∈ ts.toList, f t = some false
  | .nil => by simp [allSubF, TyList.toList]
  | .cons t ts => by
    simp only [allSubF, oand_false_iff, TyList.toList, List.mem_cons,
      allSubF_false_iff ts]
    constructor
    · rintro (h1 | ⟨u, hu, h2⟩)
      · exact ⟨t, Or.inl rfl, h1⟩
      · exact ⟨u, Or.inr hu, h2⟩
    · rintro ⟨u, (rfl | hu), h2⟩
      · exact Or.inl h2
      · exact Or.inr ⟨u, hu, h2⟩

theorem anySubF_true_iff {f : Ty → Option Bool} :
    ∀ ts : TyList, anySubF f ts = some true ↔ ∃ t ∈ ts.toList, f t = some true
  | .nil => by simp [anySubF, TyList.toList]
  | .cons t ts => by
    simp only [anySubF, oor_true_iff, TyList.toList, List.mem_cons,
      anySubF_true_iff ts]
    constructor
    · rintro (h1 | ⟨u, hu, h2⟩)
      · exact ⟨t, Or.inl rfl, h1⟩
      · exact ⟨u, Or.inr hu, h2⟩
    · rintro ⟨u, (rfl | hu), h2⟩
      · exact Or.inl h2
      · exact Or.inr ⟨u, hu, h2⟩

theorem anySubF_false_iff {f : Ty → Option Bool} :
    ∀ ts : TyList, anySubF f ts = some false ↔ ∀ t ∈ ts.toList, f t = some false
  | .nil => by simp [anySubF, TyList.toList]
  | .cons t ts => by
    simp only [anySubF, oor_false_iff, TyList.toList, List.mem_cons,
      anySubF_false_iff ts]
    constructor
    · rintro ⟨h1, h2⟩ u (rfl | hu)
      · exact h1
      · exact h2 u hu
    · intro h
      exact ⟨h t (Or.inl rfl), fun u hu => h u (Or.inr hu)⟩

theorem mem_flattenList_iff {x : Ty} :
    ∀ ts : TyList, x ∈ flattenList ts ↔ ∃ a ∈ ts.toList, x ∈ flattenOne a
  | .nil => by simp [flattenList, TyList.toList]
  | .cons t ts => by
    simp only [flattenList, List.mem_append, TyList.toList, List.mem_cons,
      mem_flattenList_iff ts]
    constructor
    · rintro (h | ⟨a, ha, h⟩)
      · exact ⟨t, Or.inl rfl, h⟩
      · exact ⟨a, Or.inr ha, h⟩
    · rintro ⟨a, (rfl | ha), h⟩
      · exact Or.inl h
      · exact Or.inr ⟨a, ha, h⟩

theorem exists_uniform_fuel (g : Nat → Ty → Option Bool) (b : Bool)
    (hmono : ∀ t f f', f ≤ f' → g f t = some b → g f' t = some b) :
    ∀ ts : TyList, (∀ a ∈ ts.toList, ∃ f, g f a = some b) →
      ∃ F, ∀ a ∈ ts.toList, g F a = some b
  | .nil, _ => ⟨0, by simp [TyList.toList]⟩
  | .cons t ts, h => by
    obtain ⟨f1, hf1⟩ := h t (by simp [TyList.toList])
    obtain ⟨F, hF⟩ := exists_uniform_fuel g b hmono ts
      (fun a ha => h a (by simp [TyList.toList, ha]))
    refine ⟨max f1 F, fun a ha => ?_⟩
    rcases List.mem_cons.mp ha with rfl | ha
    · exact hmono a f1 _ (Nat.le_max_left f1 F) hf1
    · exact hmono a F _ (Nat.le_max_right f1 F) (hF a ha)

/-- Equation: a union on the concrete side steps to the conjunction over
its arms. -/
theorem isSubtypeMemoF_concrete_union (f : Nat) (memo : List (Ty × Ty)) (r : Ty)
    (cts : TyList) (hne : r ≠ Ty.union cts) (hrv : r ≠ Ty.value) :
    isSubtypeMemoF (f + 1) memo r (Ty.union cts) =
      allSubF (fun t => isSubtypeMemoF f memo r t) cts := by
  show isSubStep (fun m a b => isSubtypeMemoF f m a b) memo r (Ty.union cts) = _
  unfold isSubStep
  rw [if_neg hne, if_neg hrv]

/-- Equation: a union on the required side against a non-union concrete
type steps to the disjunction over its arms. -/
theorem isSubtypeMemoF_required_union (f : Nat) (memo : List (Ty × Ty)) (as : TyList)
    (c : Ty) (hcu : ∀ us, c ≠ Ty.union us) (hne : Ty.union as ≠ c) :
    isSubtypeMemoF (f + 1) memo (Ty.union as) c =
      anySubF (fun t => isSubtypeMemoF f memo t c) as := by
  show isSubStep (fun m a b => isSubtypeMemoF f m a b) memo (Ty.union as) c = _
  unfold isSubStep
  rw [if_neg hne, if_neg (by simp)]
  cases c
  case union us => exact absurd rfl (hcu us)
  all_goals rfl

/-- A non-union member of the flattening of `r` is accepted by `r`. -/
theorem mem_flatten_conv_true :
    ∀ (n : Nat) (r : Ty), tySize r ≤ n → ∀ (c : Ty) (memo : List (Ty × Ty)),
      (∀ us, c ≠ Ty.union us) → c ∈ flattenOne r →
      ∃ f, isSubtypeMemoF f memo r c = some true := by
  intro n
  induction n with
  | zero => intro r hr; have := tySize_pos r; omega
  | succ k ih =>
    intro r hr c memo hcu hmem
    by_cases hru : ∃ rts, r = Ty.union rts
    · obtain ⟨rts, rfl⟩ := hru
      rw [show flattenOne (Ty.union rts) = flattenList rts from rfl] at hmem
      obtain ⟨a, ha, hmem2⟩ := (mem_flattenList_iff rts).mp hmem
      have hsize : tySize a ≤ k := by
        have h1 := tySize_mem_le rts a ha
        simp only [tySize] at hr
        omega
      obtain ⟨f, hf⟩ := ih a hsize c memo hcu hmem2
      by_cases hrc : Ty.union rts = c
      · exact ⟨0 + 1, by rw [hrc]; exact isSubtypeMemoF_refl 0 memo c⟩
      · refine ⟨f + 1, ?_⟩
        rw [isSubtypeMemoF_required_union f memo rts c hcu hrc]
        exact (anySubF_true_iff rts).mpr ⟨a, ha, hf⟩
    · push_neg at hru
      rw [flattenOne_eq_single hru] at hmem
      simp only [List.mem_singleton] at hmem
      exact ⟨0 + 1, by rw [hmem]; exact isSubtypeMemoF_refl 0 memo r⟩

/-- Acceptance of a type is acceptance of every member of its flattening
(union on the concrete side is universally quantified over the flattened
arms). -/
theorem conv_true_flatten_right :
    ∀ (n : Nat) (a : Ty), tySize a ≤ n → ∀ (r : Ty) (memo : List (Ty × Ty)),
      ((∃ f, isSubtypeMemoF f memo r a = some true) ↔
        ∀ t ∈ flattenOne a, ∃ f, isSubtypeMemoF f memo r t = some true) := by
  intro n
  induction n with
  | zero => intro a ha; have := tySize_pos a; omega
  | succ k ih =>
    intro a ha r memo
    by_cases hau : ∃ as, a = Ty.union as
    case neg =>
      push_neg at hau
      rw [flattenOne_eq_single hau]
      simp
    case pos =>
    obtain ⟨as, rfl⟩ := hau
    rw [show flattenOne (Ty.union as) = flattenList as from rfl]
    have harmsize : ∀ t ∈ as.toList, tySize t ≤ k := by
      intro t ht
      have := tySize_mem_le as t ht
      simp only [tySize] at ha
      omega
    by_cases hrc : r = Ty.union as
    · constructor
      · intro _ t ht
        refine mem_flatten_conv_true (tySize r) r le_rfl t memo
          (flattenList_not_union as t ht) ?_
        rw [hrc]
        exact ht
      · intro _
        exact ⟨0 + 1, hrc ▸ isSubtypeMemoF_refl 0 memo _⟩
    · by_cases hrv : r = Ty.value
      · subst hrv
        constructor
        · intro _ t ht
          exact ⟨0 + 1, isSubtypeMemoF_value 0 memo t⟩
        · intro _
          exact ⟨0 + 1, isSubtypeMemoF_value 0 memo _⟩
      · constructor
        · rintro ⟨f, hf⟩ t ht
          obtain ⟨f', rfl⟩ : ∃ f', f = f' + 1 := by
            cases f with
            | zero => simp [isSubtypeMemoF] at hf
            | succ f' => exact ⟨f', rfl⟩
          rw [isSubtypeMemoF_concrete_union f' memo r as hrc hrv] at hf
          have hall := (allSubF_true_iff as).mp hf
          obtain ⟨arm, harm, htarm⟩ := (mem_flattenList_iff as).mp ht
          exact (ih arm (harmsize arm harm) r memo).mp ⟨f', hall arm harm⟩ t htarm
        · intro h
          have harms : ∀ arm ∈ as.toList, ∃ f, isSubtypeMemoF f memo r arm = some true := by
            intro arm harm
            apply (ih arm (harmsize arm harm) r memo).mpr
            intro t ht
            exact h t ((mem_flattenList_iff as).mpr ⟨arm, harm, ht⟩)
          obtain ⟨F, hF⟩ := exists_uniform_fuel (fun f t => isSubtypeMemoF f memo r t) true
            (fun t f f' hle hh => isSubtypeMemoF_mono hh hle) as harms
          refine ⟨F + 1, ?_⟩
          rw [isSubtypeMemoF_concrete_union F memo r as hrc hrv]
          exact (allSubF_true_iff as).mpr hF

/-- Rejection of a type is rejection of some member of its flattening. -/
theorem conv_false_flatten_right :
    ∀ (n : Nat) (a : Ty), tySize a ≤ n → ∀ (r : Ty) (memo : List (Ty × Ty)),
      ((∃ f, isSubtypeMemoF f memo r a = some false) ↔
        ∃ t ∈ flattenOne a, ∃ f, isSubtypeMemoF f memo r t = some false) := by
  intro n
  induction n with
  | zero => intro a ha; have := tySize_pos a; omega
  | succ k ih =>
    intro a ha r memo
    by_cases hau : ∃ as, a = Ty.union as
    case neg =>
      push_neg at hau
      rw [flattenOne_eq_single hau]
      simp
    case pos =>
    obtain ⟨as, rfl⟩ := hau
    rw [show flattenOne (Ty.union as) = flattenList as from rfl]
    have harmsize : ∀ t ∈ as.toList, tySize t ≤ k := by
      intro t ht
      have := tySize_mem_le as t ht
      simp only [tySize] at ha
      omega
    by_cases hrc : r = Ty.union as
    · constructor
      · rintro ⟨f, hf⟩
        have h2 : isSubtypeMemoF (0 + 1) memo r (Ty.union as) = some true := by
          rw [hrc]
          exact isSubtypeMemoF_refl 0 memo (Ty.union as)
        have := conv_unique hf h2
        simp at this
      · rintro ⟨t, ht, f, hf⟩
        obtain ⟨f2, hf2⟩ := mem_flatten_conv_true (tySize r) r le_rfl t memo
          (flattenList_not_union as t ht) (by rw [hrc]; exact ht)
        have := conv_unique hf hf2
        simp at this
    · by_cases hrv : r = Ty.value
      · subst hrv
        constructor
        · rintro ⟨f, hf⟩
          have := conv_unique hf (isSubtypeMemoF_value 0 memo (Ty.union as))
          simp at this
        · rintro ⟨t, ht, f, hf⟩
          have := conv_unique hf (isSubtypeMemoF_value 0 memo t)
          simp at this
      · constructor
        · rintro ⟨f, hf⟩
          obtain ⟨f', rfl⟩ : ∃ f', f = f' + 1 := by
            cases f with
            | zero => simp [isSubtypeMemoF] at hf
            | succ f' => exact ⟨f', rfl⟩
          rw [isSubtypeMemoF_concrete_union f' memo r as hrc hrv] at hf
          obtain ⟨arm, harm, hfarm⟩ := (allSubF_false_iff as).mp hf
          obtain ⟨t, ht, hfin⟩ := (ih arm (harmsize arm harm) r memo).mp ⟨f', hfarm⟩
          exact ⟨t, (mem_flattenList_iff as).mpr ⟨arm, harm, ht⟩, hfin⟩
        · rintro ⟨t, ht, f, hf⟩
          obtain ⟨arm, harm, htarm⟩ := (mem_flattenList_iff as).mp ht
          obtain ⟨f2, hf2⟩ := (ih arm (harmsize arm harm) r memo).mpr ⟨t, htarm, f, hf⟩
          refine ⟨f2 + 1, ?_⟩
          rw [isSubtypeMemoF_concrete_union f2 memo r as hrc hrv]
          exact (allSubF_false_iff as).mpr ⟨arm, harm, hf2⟩

/-- Acceptance by a type (against a non-union concrete type) is acceptance
by some member of its flattening (union on the required side is
existentially quantified over the flattened arms). -/
theorem conv_true_flatten_left :
    ∀ (n : Nat) (a : Ty), tySize a ≤ n → ∀ (c : Ty) (memo : List (Ty × Ty)),
      (∀ us, c ≠ Ty.union us) →
      ((∃ f, isSubtypeMemoF f memo a c = some true) ↔
        ∃ t ∈ flattenOne a, ∃ f, isSubtypeMemoF f memo t c = some true) := by
  intro n
  induction n with
  | zero => intro a ha; have := tySize_pos a; omega
  | succ k ih =>
    intro a ha c memo hcu
    by_cases hau : ∃ as, a = Ty.union as
    case neg =>
      push_neg at hau
      rw [flattenOne_eq_single hau]
      simp
    case pos =>
    obtain ⟨as, rfl⟩ := hau
    have hne : Ty.union as ≠ c := fun h => hcu as h.symm
    rw [show flattenOne (Ty.union as) = flattenList as from rfl]
    have harmsize : ∀ t ∈ as.toList, tySize t ≤ k := by
      intro t ht
      have := tySize_mem_le as t ht
      simp only [tySize] at ha
      omega
    constructor
    · rintro ⟨f, hf⟩
      obtain ⟨f', rfl⟩ : ∃ f', f = f' + 1 := by
        cases f with
        | zero => simp [isSubtypeMemoF] at hf
        | succ f' => exact ⟨f', rfl⟩
      rw [isSubtypeMemoF_required_union f' memo as c hcu hne] at hf
      obtain ⟨arm, harm, hfarm⟩ := (anySubF_true_iff as).mp hf
      obtain ⟨t, ht, hfin⟩ := (ih arm (harmsize arm harm) c memo hcu).mp ⟨f', hfarm⟩
      exact ⟨t, (mem_flattenList_iff as).mpr ⟨arm, harm, ht⟩, hfin⟩
    · rintro ⟨t, ht, f, hf⟩
      obtain ⟨arm, harm, htarm⟩ := (mem_flattenList_iff as).mp ht
      obtain ⟨f2, hf2⟩ := (ih arm (harmsize arm harm) c memo hcu).mpr ⟨t, htarm, f, hf⟩
      refine ⟨f2 + 1, ?_⟩
      rw [isSubtypeMemoF_required_union f2 memo as c hcu hne]
      exact (anySubF_true_iff as).mpr ⟨arm, harm, hf2⟩

/-- Rejection by a type (against a non-union concrete type) is rejection
by every member of its flattening. -/
theorem conv_false_flatten_left :
    ∀ (n : Nat) (a : Ty), tySize a ≤ n → ∀ (c : Ty) (memo : List (Ty × Ty)),
      (∀ us, c ≠ Ty.union us) →
      ((∃ f, isSubtypeMemoF f memo a c = some false) ↔
        ∀ t ∈ flattenOne a, ∃ f, isSubtypeMemoF f memo t c = some false) := by
  intro n
  induction n with
  | zero => intro a ha; have := tySize_pos a; omega
  | succ k ih =>
    intro a ha c memo hcu
    by_cases hau : ∃ as, a = Ty.union as
    case neg =>
      push_neg at hau
      rw [flattenOne_eq_single hau]
      simp
    case pos =>
    obtain ⟨as, rfl⟩ := hau
    have hne : Ty.union as ≠ c := fun h => hcu as h.symm
    rw [show flattenOne (Ty.union as) = flattenList as from rfl]
    have harmsize : ∀ t ∈ as.toList, tySize t ≤ k := by
      intro t ht
      have := tySize_mem_le as t ht
      simp only [tySize] at ha
      omega
    constructor
    · rintro ⟨f, hf⟩ t ht
      obtain ⟨f', rfl⟩ : ∃ f', f = f' + 1 := by
        cases f with
        | zero => simp [isSubtypeMemoF] at hf
        | succ f' => exact ⟨f', rfl⟩
      rw [isSubtypeMemoF_required_union f' memo as c hcu hne] at hf
      have hall := (anySubF_false_iff as).mp hf
      obtain ⟨arm, harm, htarm⟩ := (mem_flattenList_iff as).mp ht
      exact (ih arm (harmsize arm harm) c memo hcu).mp ⟨f', hall arm harm⟩ t htarm
    · intro h
      have harms : ∀ arm ∈ as.toList, ∃ f, isSubtypeMemoF f memo arm c = some false := by
        intro arm harm
        apply (ih arm (harmsize arm harm) c memo hcu).mpr
        intro t ht
        exact h t ((mem_flattenList_iff as).mpr ⟨arm, harm, ht⟩)
      obtain ⟨F, hF⟩ := exists_uniform_fuel (fun f t => isSubtypeMemoF f memo t c) false
        (fun t f f' hle hh => isSubtypeMemoF_mono hh hle) as harms
      refine ⟨F + 1, ?_⟩
      rw [isSubtypeMemoF_required_union F memo as c hcu hne]
      exact (anySubF_false_iff as).mpr hF

/-- Acceptance of a built union is acceptance of every constituent. -/
theorem conv_true_makeUnion_right (R : Ty) (ts : TyList) :
    (∃ f, isSubtypeMemoF f [] R (MakeUnionType ts) = some true) ↔
      ∀ a ∈ ts.toList, ∃ f, isSubtypeMemoF f [] R a = some true := by
  rw [conv_true_flatten_right (tySize (MakeUnionType ts)) _ le_rfl R []]
  constructor
  · intro h a ha
    rw [conv_true_flatten_right (tySize a) a le_rfl R []]
    intro t ht
    apply h
    rw [mem_flattenOne_makeUnionType, mem_flattenList_iff]
    exact ⟨a, ha, ht⟩
  · intro h t ht
    rw [mem_flattenOne_makeUnionType, mem_flattenList_iff] at ht
    obtain ⟨a, ha, htarm⟩ := ht
    exact (conv_true_flatten_right (tySize a) a le_rfl R []).mp (h a ha) t htarm

/-- Acceptance of a raw union node is acceptance of every arm. -/
theorem conv_true_union_right (R : Ty) (cts : TyList) :
    (∃ f, isSubtypeMemoF f [] R (Ty.union cts) = some true) ↔
      ∀ a ∈ cts.toList, ∃ f, isSubtypeMemoF f [] R a = some true := by
  rw [conv_true_flatten_right (tySize (Ty.union cts)) _ le_rfl R []]
  rw [show flattenOne (Ty.union cts) = flattenList cts from rfl]
  constructor
  · intro h a ha
    rw [conv_true_flatten_right (tySize a) a le_rfl R []]
    intro t ht
    exact h t ((mem_flattenList_iff cts).mpr ⟨a, ha, ht⟩)
  · intro h t ht
    obtain ⟨a, ha, htarm⟩ := (mem_flattenList_iff cts).mp ht
    exact (conv_true_flatten_right (tySize a) a le_rfl R []).mp (h a ha) t htarm

/-- A built union accepts a non-union concrete type iff some constituent
accepts it. -/
theorem conv_true_makeUnion_left (C : Ty) (hcu : ∀ us, C ≠ Ty.union us) (ts : TyList) :
    (∃ f, isSubtypeMemoF f [] (MakeUnionType ts) C = some true) ↔
      ∃ a ∈ ts.toList, ∃ f, isSubtypeMemoF f [] a C = some true := by
  rw [conv_true_flatten_left (tySize (MakeUnionType ts)) _ le_rfl C [] hcu]
  constructor
  · rintro ⟨t, ht, hf⟩
    rw [mem_flattenOne_makeUnionType, mem_flattenList_iff] at ht
    obtain ⟨a, ha, htarm⟩ := ht
    exact ⟨a, ha, (conv_true_flatten_left (tySize a) a le_rfl C [] hcu).mpr ⟨t, htarm, hf⟩⟩
  · rintro ⟨a, ha, hf⟩
    obtain ⟨t, ht, hfin⟩ := (conv_true_flatten_left (tySize a) a le_rfl C [] hcu).mp hf
    refine ⟨t, ?_, hfin⟩
    rw [mem_flattenOne_makeUnionType, mem_flattenList_iff]
    exact ⟨a, ha, ht⟩

/-- A raw union node accepts a non-union concrete type iff some arm
accepts it. -/
theorem conv_true_union_left (C : Ty) (hcu : ∀ us, C ≠ Ty.union us) (rts : TyList) :
    (∃ f, isSubtypeMemoF f [] (Ty.union rts) C = some true) ↔
      ∃ a ∈ rts.toList, ∃ f, isSubtypeMemoF f [] a C = some true := by
  rw [conv_true_flatten_left (tySize (Ty.union rts)) _ le_rfl C [] hcu]
  rw [show flattenOne (Ty.union rts) = flattenList rts from rfl]
  constructor
  · rintro ⟨t, ht, hf⟩
    obtain ⟨a, ha, htarm⟩ := (mem_flattenList_iff rts).mp ht
    exact ⟨a, ha, (conv_true_flatten_left (tySize a) a le_rfl C [] hcu).mpr ⟨t, htarm, hf⟩⟩
  · rintro ⟨a, ha, hf⟩
    obtain ⟨t, ht, hfin⟩ := (conv_true_flatten_left (tySize a) a le_rfl C [] hcu).mp hf
    exact ⟨t, (mem_flattenList_iff rts).mpr ⟨a, ha, ht⟩, hfin⟩

/-- C1: for every required type R and all types A, B,
isSubtype(R, MakeUnionType(A, B)) is true iff both isSubtype(R, A) and
isSubtype(R, B) are true; and in general, when the concrete type is a
union, the judge returns true iff every arm of the concrete union is a
subtype of the required type (stated on finalized, i.e. closed, types,
where the judge is definite). -/
theorem claim_C1_union_right (R A B : Ty) (cts : TyList)
    (hR : Closed R) (hA : Closed A) (hB : Closed B) (hcts : Closed (Ty.union cts)) :
    (isSubtype R (MakeUnionType (TyList.ofList [A, B])) =
        (isSubtype R A && isSubtype R B)) ∧
    (isSubtype R (Ty.union cts) = true ↔ ∀ t ∈ cts.toList, isSubtype R t = true) := by
  have hU : Closed (MakeUnionType (TyList.ofList [A, B])) := by
    apply makeUnionType_closed
    apply closedTyListB_ofList
    intro x hx
    simp only [List.mem_cons, List.not_mem_nil, or_false] at hx
    rcases hx with rfl | rfl
    · exact hA
    · exact hB
  constructor
  · have hiff : (∃ f, isSubtypeMemoF f [] R (MakeUnionType (TyList.ofList [A, B])) = some true) ↔
        ((∃ f, isSubtypeMemoF f [] R A = some true) ∧
          (∃ f, isSubtypeMemoF f [] R B = some true)) := by
      rw [conv_true_makeUnion_right R (TyList.ofList [A, B]), TyList.toList_ofList]
      constructor
      · intro h
        exact ⟨h A (by simp), h B (by simp)⟩
      · rintro ⟨h1, h2⟩ a ha
        simp only [List.mem_cons, List.not_mem_nil, or_false] at ha
        rcases ha with rfl | rfl
        · exact h1
        · exact h2
    cases hAB : (isSubtype R A && isSubtype R B) with
    | true =>
      rw [Bool.and_eq_true] at hAB
      have h1 : isSubtypeMemoF (fuelBound R A) [] R A = some true := by
        have := isSubtype_memoF_eq hR hA
        rw [hAB.1] at this
        exact this
      have h2 : isSubtypeMemoF (fuelBound R B) [] R B = some true := by
        have := isSubtype_memoF_eq hR hB
        rw [hAB.2] at this
        exact this
      obtain ⟨f, hf⟩ := hiff.mpr ⟨⟨_, h1⟩, ⟨_, h2⟩⟩
      exact isSubtype_eq_of_memoF hR hU hf
    | false =>
      cases hU2 : isSubtype R (MakeUnionType (TyList.ofList [A, B])) with
      | false => rfl
      | true =>
        have hfU : isSubtypeMemoF
            (fuelBound R (MakeUnionType (TyList.ofList [A, B]))) [] R
            (MakeUnionType (TyList.ofList [A, B])) = some true := by
          have := isSubtype_memoF_eq hR hU
          rw [hU2] at this
          exact this
        obtain ⟨⟨f1, hf1⟩, ⟨f2, hf2⟩⟩ := hiff.mp ⟨_, hfU⟩
        have e1 := isSubtype_eq_of_memoF hR hA hf1
        have e2 := isSubtype_eq_of_memoF hR hB hf2
        rw [e1, e2] at hAB
        simp at hAB
  · constructor
    · intro h t ht
      have hct : Closed t := closedTyListB_mem cts [] hcts t ht
      have hfU : isSubtypeMemoF (fuelBound R (Ty.union cts)) [] R (Ty.union cts) =
          some true := by
        have := isSubtype_memoF_eq hR hcts
        rw [h] at this
        exact this
      obtain ⟨f, hf⟩ := (conv_true_union_right R cts).mp ⟨_, hfU⟩ t ht
      exact isSubtype_eq_of_memoF hR hct hf
    · intro h
      have harms : ∀ a ∈ cts.toList, ∃ f, isSubtypeMemoF f [] R a = some true := by
        intro a ha
        have hca : Closed a := closedTyListB_mem cts [] hcts a ha
        refine ⟨fuelBound R a, ?_⟩
        have := isSubtype_memoF_eq hR hca
        rw [h a ha] at this
        exact this
      obtain ⟨f, hf⟩ := (conv_true_union_right R cts).mpr harms
      exact isSubtype_eq_of_memoF hR hcts hf

/-- Witness for C1 at a concrete instance. -/
theorem claim_C1_union_right_witness :
    (isSubtype Ty.number (MakeUnionType (TyList.ofList [Ty.number, Ty.str])) =
        (isSubtype Ty.number Ty.number && isSubtype Ty.number Ty.str)) ∧
    (isSubtype Ty.number (Ty.union (TyList.ofList [Ty.number, Ty.str])) = true ↔
      ∀ t ∈ (TyList.ofList [Ty.number, Ty.str]).toList, isSubtype Ty.number t = true) :=
  claim_C1_union_right Ty.number Ty.number Ty.str (TyList.ofList [Ty.number, Ty.str])
    (by decide) (by decide) (by decide) (by decide)

/-- C2: for every non-union concrete type C and all types A, B,
isSubtype(MakeUnionType(A, B), C) is true iff isSubtype(A, C) or
isSubtype(B, C) is true; and in general, when the required type is a
union and the concrete type is not, the judge returns true iff some arm
of the required union accepts the concrete type (stated on finalized,
i.e. closed, types, where the judge is definite). -/
theorem claim_C2_union_left (C A B : Ty) (rts : TyList)
    (hcu : ∀ us, C ≠ Ty.union us)
    (hC : Closed C) (hA : Closed A) (hB : Closed B) (hrts : Closed (Ty.union rts)) :
    (isSubtype (MakeUnionType (TyList.ofList [A, B])) C =
        (isSubtype A C || isSubtype B C)) ∧
    (isSubtype (Ty.union rts) C = true ↔ ∃ t ∈ rts.toList, isSubtype t C = true) := by
  have hU : Closed (MakeUnionType (TyList.ofList [A, B])) := by
    apply makeUnionType_closed
    apply closedTyListB_ofList
    intro x hx
    simp only [List.mem_cons, List.not_mem_nil, or_false] at hx
    rcases hx with rfl | rfl
    · exact hA
    · exact hB
  constructor
  · have hiff : (∃ f, isSubtypeMemoF f [] (MakeUnionType (TyList.ofList [A, B])) C = some true) ↔
        ((∃ f, isSubtypeMemoF f [] A C = some true) ∨
          (∃ f, isSubtypeMemoF f [] B C = some true)) := by
      rw [conv_true_makeUnion_left C hcu (TyList.ofList [A, B]), TyList.toList_ofList]
      constructor
      · rintro ⟨a, ha, hf⟩
        simp only [List.mem_cons, List.not_mem_nil, or_false] at ha
        rcases ha with rfl | rfl
        · exact Or.inl hf
        · exact Or.inr hf
      · rintro (hf | hf)
        · exact ⟨A, by simp, hf⟩
        · exact ⟨B, by simp, hf⟩
    cases hAB : (isSubtype A C || isSubtype B C) with
    | true =>
      rw [Bool.or_eq_true] at hAB
      have hsome : (∃ f, isSubtypeMemoF f [] A C = some true) ∨
          (∃ f, isSubtypeMemoF f [] B C = some true) := by
        rcases hAB with h | h
        · refine Or.inl ⟨fuelBound A C, ?_⟩
          have := isSubtype_memoF_eq hA hC
          rw [h] at this
          exact this
        · refine Or.inr ⟨fuelBound B C, ?_⟩
          have := isSubtype_memoF_eq hB hC
          rw [h] at this
          exact this
      obtain ⟨f, hf⟩ := hiff.mpr hsome
      exact isSubtype_eq_of_memoF hU hC hf
    | false =>
      cases hU2 : isSubtype (MakeUnionType (TyList.ofList [A, B])) C with
      | false => rfl
      | true =>
        have hfU : isSubtypeMemoF
            (fuelBound (MakeUnionType (TyList.ofList [A, B])) C) []
            (MakeUnionType (TyList.ofList [A, B])) C = some true := by
          have := isSubtype_memoF_eq hU hC
          rw [hU2] at this
          exact this
        rcases hiff.mp ⟨_, hfU⟩ with ⟨f1, hf1⟩ | ⟨f2, hf2⟩
        · have e1 := isSubtype_eq_of_memoF hA hC hf1
          rw [e1] at hAB
          simp at hAB
        · have e2 := isSubtype_eq_of_memoF hB hC hf2
          rw [e2] at hAB
          simp at hAB
  · constructor
    · intro h
      have hfU : isSubtypeMemoF (fuelBound (Ty.union rts) C) [] (Ty.union rts) C =
          some true := by
        have := isSubtype_memoF_eq hrts hC
        rw [h] at this
        exact this
      obtain ⟨a, ha, f, hf⟩ := (conv_true_union_left C hcu rts).mp ⟨_, hfU⟩
      have hca : Closed a := closedTyListB_mem rts [] hrts a ha
      exact ⟨a, ha, isSubtype_eq_of_memoF hca hC hf⟩
    · rintro ⟨a, ha, h⟩
      have hca : Closed a := closedTyListB_mem rts [] hrts a ha
      have hfa : isSubtypeMemoF (fuelBound a C) [] a C = some true := by
        have := isSubtype_memoF_eq hca hC
        rw [h] at this
        exact this
      obtain ⟨f, hf⟩ := (conv_true_union_left C hcu rts).mpr ⟨a, ha, _, hfa⟩
      exact isSubtype_eq_of_memoF hrts hC hf

/-- Witness for C2 at a concrete instance. -/
theorem claim_C2_union_left_witness :
    (isSubtype (MakeUnionType (TyList.ofList [Ty.bool, Ty.number])) Ty.number =
        (isSubtype Ty.bool Ty.number || isSubtype Ty.number Ty.number)) ∧
    (isSubtype (Ty.union (TyList.ofList [Ty.bool, Ty.number])) Ty.number = true ↔
      ∃ t ∈ (TyList.ofList [Ty.bool, Ty.number]).toList, isSubtype t Ty.number = true) :=
  claim_C2_union_left Ty.number Ty.bool Ty.number (TyList.ofList [Ty.bool, Ty.number])
    (fun us h => Ty.noConfusion h) (by decide) (by decide) (by decide) (by decide)
